import Mathlib

/-!
# Verification of the AprilSAM generic open-addressing hash table

Shallow embedding of `src/aprilsam/common/thash_impl.h`.

The C file is a macro-generated generic container: a fixed-capacity array of
slots (`valid` flag + key + value), linear probing with power-of-two masking,
insert-or-update with a synchronous rehash when `nentries < 2*size`,
tombstone-free removal that re-puts the run of entries following the vacated
slot, and a linear iterator.

Modelling choices:
* a slot is `Option (K × V)`: `none` is `valid = 0` (the key/value bytes of an
  invalid slot are never read by the source);
* `nentries` is the length of the `entries` list (the C struct stores it
  separately but it always equals the allocated length);
* the table is parameterized by the instantiation contract of the macro:
  `hash : K → Nat` (`TKEYHASH`, truncated to 32 bits as in C) and
  `keq : K → K → Bool` (`TKEYEQUAL`);
* loops whose termination depends on the data carry explicit fuel; the fuel
  values used by the top-level operations are sufficient for every table
  satisfying the data-model invariants (proved below), so exhaustion models
  the divergence the C code would exhibit on a malformed table;
* `Option` results: `none` models a fatal outcome — divergence of an
  unbounded loop or the `assert(0)` that fires when a reinsertion during
  rehash/remove/copy finds a matching key.
-/

set_option maxHeartbeats 1000000

namespace thash

/-- A slot of the backing array: `Empty` or `Occupied (key, value)`.
In C: `struct TFN(_entry) { uint8_t valid; TKEYTYPE key; TVALTYPE value; }`. -/
abbrev Slot (K V : Type) := Option (K × V)

/-- The table. In C: `struct TTYPENAME { struct TFN(_entry) *entries; int nentries; int size; }`;
`nentries` is the length of `entries`. -/
structure T (K V : Type) where
  entries : List (Slot K V)
  size : Nat

variable {K V : Type}

/-- Capacity accessor (the C `nentries` field). -/
def nentries (t : T K V) : Nat := t.entries.length

/-- `#define THASH_FACTOR_CRITICAL 2` -/
def THASH_FACTOR_CRITICAL : Nat := 2

/-- `#define THASH_FACTOR_REALLOC 4` -/
def THASH_FACTOR_REALLOC : Nat := 4

/-- The power-of-two rounding loop of `create_capacity`:
`nentries = 8; while (nentries < _nentries) nentries *= 2;`.
The `0 < cur` guard only excludes the diverging `cur = 0` case, which the
source never reaches (the loop always starts at 8).  `fuel` bounds the
number of doubling iterations; `fuel = target` is always enough (proved
below), so the fuelled loop computes exactly what the C loop computes. -/
def growLoop (fuel : Nat) (target : Nat) (cur : Nat) : Nat :=
  match fuel with
  | 0 => cur
  | f + 1 => if 0 < cur ∧ cur < target then growLoop f target (cur * 2) else cur

/-- The capacity computation of `TFN(create_capacity)`:
`_nentries = 4*capacity; if (_nentries < 8) _nentries = 8;` then round up to a
power of two with the doubling loop when `_nentries` is not already one. -/
def create_capacity_nentries (capacity : Nat) : Nat :=
  let _nentries0 := THASH_FACTOR_REALLOC * capacity
  let _nentries := if _nentries0 < 8 then 8 else _nentries0
  if _nentries &&& (_nentries - 1) != 0 then growLoop _nentries _nentries 8 else _nentries

/-- `TFN(create_capacity)`: allocate room so that `size` can grow to
`capacity` without rehashing.  All slots start `Empty` (`calloc`). -/
def create_capacity (capacity : Nat) : T K V :=
  { entries := List.replicate (create_capacity_nentries capacity) none, size := 0 }

/-- `TFN(create)`: `create_capacity(8)`. -/
def create : T K V := create_capacity 8

/-- `TFN(size)`. -/
def size (t : T K V) : Nat := t.size

/-- `TFN(clear)`: `memset` every slot to invalid, `size = 0`; capacity kept. -/
def clear (t : T K V) : T K V :=
  { entries := List.replicate t.entries.length none, size := 0 }

/-- Read the slot at index `i` (out-of-range reads, which the source never
performs on an index already masked by `nentries - 1`, give `Empty`). -/
def slotAt (l : List (Slot K V)) (i : Nat) : Slot K V := l.getD i none

/-- `(uint32_t) TKEYHASH(key)`: the user hash truncated to 32 bits. -/
def keyhash (hash : K → Nat) (k : K) : Nat := hash k % 2 ^ 32

/-- The probe start index: `code & (nentries - 1)`. -/
def homeIdx (hash : K → Nat) (n : Nat) (k : K) : Nat := keyhash hash k &&& (n - 1)

/-- The probe-loop exit condition at index `i`: the slot is invalid, or its
key is `TKEYEQUAL` to the probed key. -/
def stopB (keq : K → K → Bool) (l : List (Slot K V)) (k : K) (i : Nat) : Bool :=
  match slotAt l i with
  | none => true
  | some (k', _) => keq k k'

/-- The linear-probe loop shared (verbatim in the source) by `get`,
`get_volatile`, `put` and `remove`:
`while (entries[idx].valid && !TKEYEQUAL(key, &entries[idx].key)) idx = (idx+1) & (nentries-1);`.
Returns the index at which the loop exits; `none` if `fuel` iterations did
not exit (the C loop would spin forever on a full table with no match). -/
def probeLoop (keq : K → K → Bool) (l : List (Slot K V)) (k : K) (idx : Nat) (fuel : Nat) :
    Option Nat :=
  match fuel with
  | 0 => none
  | fuel' + 1 =>
    if stopB keq l k idx then some idx
    else probeLoop keq l k ((idx + 1) &&& (l.length - 1)) fuel'

/-- Run the probe from the home index with fuel `nentries` (enough whenever an
empty slot exists, which the invariant `length < capacity` guarantees). -/
def probe (hash : K → Nat) (keq : K → K → Bool) (t : T K V) (k : K) : Option Nat :=
  probeLoop keq t.entries k (homeIdx hash t.entries.length k) t.entries.length

/-- `TFN(get)`: outer `none` = probe divergence; `some none` = not-found
(return 0, `*value` untouched); `some (some v)` = found (return 1). -/
def get (hash : K → Nat) (keq : K → K → Bool) (t : T K V) (k : K) : Option (Option V) :=
  (probe hash keq t k).map fun i =>
    match slotAt t.entries i with
    | some (_, v) => some v
    | none => none

/-- `TFN(get_volatile)`: identical probe and outcome; in C it returns a
pointer to the stored value instead of a copy. -/
def get_volatile (hash : K → Nat) (keq : K → K → Bool) (t : T K V) (k : K) :
    Option (Option V) :=
  get hash keq t k

/-- The bulk-reinsertion loop of the rehash branch of `put` (and of `copy`):
`for (entry_idx ...) if (entries[entry_idx].valid) if (put(newhash, ...)) assert(0);`,
parameterized by the `put` used for each entry (the nested `put` one rehash
level down). `none` = some reinsertion hit `assert(0)` (found a matching
key) or ran out of rehash depth. -/
def reinsertAllGo (putf : T K V → K → V → Option (T K V × Option (K × V)))
    (src : List (Slot K V)) (dst : T K V) : Option (T K V) :=
  match src with
  | [] => some dst
  | none :: rest => reinsertAllGo putf rest dst
  | some (k, v) :: rest =>
    match putf dst k v with
    | none => none
    | some (dst', none) => reinsertAllGo putf rest dst'
    | some (_, some _) => none

/-- `TFN(put)`.  `grow_fuel` bounds the nesting depth of rehashes (a rehash
reinsertion calls `put` again); depth 1 is exact for any table satisfying the
§3 invariants, since the fresh array has at least `4*(size+1)` slots and the
bulk reinsertion can never re-trigger the growth check (proved below).
Result: `none` models a fatal outcome (probe divergence, rehash-depth
exhaustion, or the `assert(0)` on a matching key during rehash);
`some (t', none)` is "inserted" (C returns 0); `some (t', some (k0, v0))` is
"updated, previous pair returned" (C returns 1). -/
def putF (hash : K → Nat) (keq : K → K → Bool) (grow_fuel : Nat) (t : T K V) (k : K) (v : V) :
    Option (T K V × Option (K × V)) :=
  match probe hash keq t k with
  | none => none
  | some i =>
    match slotAt t.entries i with
    | some (k0, v0) =>
      some ({ entries := t.entries.set i (some (k, v)), size := t.size }, some (k0, v0))
    | none =>
      let t1 : T K V := { entries := t.entries.set i (some (k, v)), size := t.size + 1 }
      if t1.entries.length < THASH_FACTOR_CRITICAL * t1.size then
        match grow_fuel with
        | 0 => none
        | gf + 1 =>
          match reinsertAllGo (putF hash keq gf) t1.entries (create_capacity (t1.size + 1)) with
          | none => none
          | some newhash => some (newhash, none)
      else
        some (t1, none)

/-- The reinsertion loop at rehash depth `gf`. -/
def reinsertAll (hash : K → Nat) (keq : K → K → Bool) (gf : Nat) (src : List (Slot K V))
    (dst : T K V) : Option (T K V) :=
  reinsertAllGo (putF hash keq gf) src dst

theorem reinsertAll_nil (hash : K → Nat) (keq : K → K → Bool) (gf : Nat) (dst : T K V) :
    reinsertAll hash keq gf [] dst = some dst := rfl

theorem reinsertAll_cons_none (hash : K → Nat) (keq : K → K → Bool) (gf : Nat)
    (rest : List (Slot K V)) (dst : T K V) :
    reinsertAll hash keq gf (none :: rest) dst = reinsertAll hash keq gf rest dst := rfl

theorem reinsertAll_cons_some (hash : K → Nat) (keq : K → K → Bool) (gf : Nat) (k : K) (v : V)
    (rest : List (Slot K V)) (dst : T K V) :
    reinsertAll hash keq gf (some (k, v) :: rest) dst =
      match putF hash keq gf dst k v with
      | none => none
      | some (dst', none) => reinsertAll hash keq gf rest dst'
      | some (_, some _) => none := rfl

/-- The defining equation of `putF` with the rehash loop folded back into
`reinsertAll`. -/
theorem putF_eq (hash : K → Nat) (keq : K → K → Bool) (grow_fuel : Nat) (t : T K V)
    (k : K) (v : V) :
    putF hash keq grow_fuel t k v =
      match probe hash keq t k with
      | none => none
      | some i =>
        match slotAt t.entries i with
        | some (k0, v0) =>
          some ({ entries := t.entries.set i (some (k, v)), size := t.size }, some (k0, v0))
        | none =>
          let t1 : T K V := { entries := t.entries.set i (some (k, v)), size := t.size + 1 }
          if t1.entries.length < THASH_FACTOR_CRITICAL * t1.size then
            match grow_fuel with
            | 0 => none
            | gf + 1 =>
              match reinsertAll hash keq gf t1.entries (create_capacity (t1.size + 1)) with
              | none => none
              | some newhash => some (newhash, none)
          else
            some (t1, none) := by
  rw [putF]
  rfl

/-- Top-level `put` (rehash-nesting depth 1, exact for well-formed tables). -/
def put (hash : K → Nat) (keq : K → K → Bool) (t : T K V) (k : K) (v : V) :
    Option (T K V × Option (K × V)) :=
  putF hash keq 1 t k v

/-- The backward-shift walk of `remove` (and of `iterator_remove`): starting
at the slot after the vacated one, repeatedly take out the next occupied
entry (`valid = 0; size--;`) and re-`put` it, until an `Empty` slot stops the
walk. `none` models the `assert(0)` on a matching key, or fuel exhaustion
(the C loop would walk forever if no slot ever became empty). -/
def removeWalk (hash : K → Nat) (keq : K → K → Bool) (fuel : Nat) (t : T K V) (idx : Nat) :
    Option (T K V) :=
  match fuel with
  | 0 => none
  | fuel' + 1 =>
    match slotAt t.entries idx with
    | none => some t
    | some (k, v) =>
      let t1 : T K V := { entries := t.entries.set idx none, size := t.size - 1 }
      match putF hash keq 1 t1 k v with
      | none => none
      | some (_, some _) => none
      | some (t2, none) => removeWalk hash keq fuel' t2 ((idx + 1) &&& (t2.entries.length - 1))

/-- `TFN(remove)`: probe; `some (t, none)` = not-found (return 0, table
untouched); `some (t', some (k0, v0))` = removed, previous pair returned. -/
def remove (hash : K → Nat) (keq : K → K → Bool) (t : T K V) (k : K) :
    Option (T K V × Option (K × V)) :=
  match probe hash keq t k with
  | none => none
  | some i =>
    match slotAt t.entries i with
    | none => some (t, none)
    | some (k0, v0) =>
      let t1 : T K V := { entries := t.entries.set i none, size := t.size - 1 }
      (removeWalk hash keq t1.entries.length t1 ((i + 1) &&& (t1.entries.length - 1))).map
        fun t2 => (t2, some (k0, v0))

/-- `TFN(copy)`: reinsert every occupied entry of `hash` into
`create_capacity(hash->size)`. -/
def copy (hash : K → Nat) (keq : K → K → Bool) (t : T K V) : Option (T K V) :=
  reinsertAll hash keq 1 t.entries (create_capacity t.size)

/-- `struct TFN(iterator) { TTYPENAME *hash; int last_entry; }`. -/
structure iterator_t (K V : Type) where
  hash : T K V
  last_entry : Int

/-- `TFN(iterator_init)`: `last_entry = -1`. -/
def iterator_init (t : T K V) : iterator_t K V := { hash := t, last_entry := -1 }

/-- The scan inside `iterator_next`: first occupied slot at index ≥ `i`. -/
def findFrom (l : List (Slot K V)) (i : Nat) : Option (Nat × K × V) :=
  if _h : i < l.length then
    match slotAt l i with
    | some (k, v) => some (i, k, v)
    | none => findFrom l (i + 1)
  else none
termination_by l.length - i
decreasing_by omega

/-- `TFN(iterator_next)`: advance `last_entry` past empty slots; return the
next occupied entry and the updated iterator, or `none` (C returns 0) when
the array is exhausted. -/
def iterator_next (it : iterator_t K V) : Option ((K × V) × iterator_t K V) :=
  match findFrom it.hash.entries (it.last_entry + 1).toNat with
  | some (i, k, v) => some ((k, v), { hash := it.hash, last_entry := (i : Int) })
  | none => none

/-- `TFN(iterator_remove)`: clear the slot at `last_entry` (no `size--` yet),
run the same backward-shift walk as `remove`, then `size--`. -/
def iterator_remove (hash : K → Nat) (keq : K → K → Bool) (it : iterator_t K V) :
    Option (iterator_t K V) :=
  let t := it.hash
  let le := it.last_entry.toNat
  let t1 : T K V := { entries := t.entries.set le none, size := t.size }
  match removeWalk hash keq t1.entries.length t1 ((le + 1) &&& (t1.entries.length - 1)) with
  | none => none
  | some t2 =>
    some { hash := { entries := t2.entries, size := t2.size - 1 }, last_entry := it.last_entry }

/-- The successive `(last_entry, key, value)` outputs of `iterator_next`. -/
def iterTrace (fuel : Nat) (it : iterator_t K V) : List (Int × K × V) :=
  match fuel with
  | 0 => []
  | fuel' + 1 =>
    match iterator_next it with
    | none => []
    | some ((k, v), it') => (it'.last_entry, k, v) :: iterTrace fuel' it'

/-- Fold a list of pairs through `put`, keeping only the table. -/
def putAll (hash : K → Nat) (keq : K → K → Bool) (ps : List (K × V)) (t : T K V) :
    Option (T K V) :=
  ps.foldlM (fun t p => (put hash keq t p.1 p.2).map Prod.fst) t

/-! ## Abstraction and data-model invariants -/

/-- The occupied pairs of the slot array, in slot order. -/
def occPairs (l : List (Slot K V)) : List (K × V) := l.filterMap id

/-- Number of occupied slots. -/
def occCount (l : List (Slot K V)) : Nat := (occPairs l).length

/-- The stored pair whose key is `TKEYEQUAL` to `k` (unique under the
distinct-keys invariant). -/
def lookupL (keq : K → K → Bool) (l : List (Slot K V)) (k : K) : Option (K × V) :=
  (occPairs l).find? fun p => keq k p.1

/-- Forward cyclic distance from index `a` to index `b` modulo `n`. -/
def cdist (n a b : Nat) : Nat := (b % n + n - a % n) % n

/-- The §3 probe-reachability invariant at slot `i`: if `i` holds `(k, v)`,
every slot from `hash(k) & (n-1)` up to (but excluding) `i`, scanning forward
with wraparound, is occupied. -/
def reachAtB (hash : K → Nat) (l : List (Slot K V)) (i : Nat) : Bool :=
  match slotAt l i with
  | none => true
  | some (k, _) =>
    (List.range (cdist l.length (homeIdx hash l.length k) i)).all fun d =>
      (slotAt l ((homeIdx hash l.length k + d) % l.length)).isSome

/-- Probe-reachability for every slot. -/
def Reach (hash : K → Nat) (l : List (Slot K V)) : Prop :=
  ∀ i < l.length, reachAtB hash l i = true

/-- No two occupied slots hold keys judged equal by `TKEYEQUAL`. -/
def DistinctKeys (keq : K → K → Bool) (l : List (Slot K V)) : Prop :=
  (occPairs l).Pairwise fun a b => keq a.1 b.1 = false

/-- The §3 data-model invariants: capacity a power of two and at least 8,
`size` counts the occupied slots, occupancy at most 50%, pairwise-distinct
keys, probe-reachability. -/
def WF (hash : K → Nat) (keq : K → K → Bool) (t : T K V) : Prop :=
  (∃ e < t.entries.length, t.entries.length = 2 ^ e) ∧
  8 ≤ t.entries.length ∧
  t.size = occCount t.entries ∧
  2 * t.size ≤ t.entries.length ∧
  DistinctKeys keq t.entries ∧
  Reach hash t.entries

instance (hash : K → Nat) (l : List (Slot K V)) : Decidable (Reach hash l) := by
  unfold Reach
  infer_instance

instance (keq : K → K → Bool) (l : List (Slot K V)) : Decidable (DistinctKeys keq l) := by
  unfold DistinctKeys
  infer_instance

instance (hash : K → Nat) (keq : K → K → Bool) (t : T K V) : Decidable (WF hash keq t) := by
  unfold WF
  infer_instance

/-- The §6 instantiation contract: `TKEYEQUAL` is an equivalence and
`TKEYHASH` (as a `uint32_t`) respects it. -/
structure HContract (hash : K → Nat) (keq : K → K → Bool) : Prop where
  refl : ∀ a, keq a a = true
  symm : ∀ a b, keq a b = true → keq b a = true
  trans : ∀ a b c, keq a b = true → keq b c = true → keq a c = true
  hash_eq : ∀ a b, keq a b = true → keyhash hash a = keyhash hash b

/-- The spec's growth-target formula (§3), stated from the spec's words: the
smallest power of two that is at least `4 × target`, with an absolute floor
of 8.  To be compared with the capacity `create_capacity` computes. -/
def specGrowthTarget (target : Nat) : Nat :=
  2 ^ Nat.find (show ∃ e, max 8 (4 * target) ≤ 2 ^ e from
    ⟨max 8 (4 * target), Nat.le_of_lt (Nat.lt_two_pow _)⟩)

/-! ## Arithmetic toolkit: masking, cyclic distance, powers of two -/

theorem mask_eq_mod {n : Nat} (e : Nat) (hn : n = 2 ^ e) (x : Nat) :
    x &&& (n - 1) = x % n := by
  subst hn
  exact Nat.and_pow_two_sub_one_eq_mod x e

theorem cdist_eq {n a b : Nat} (ha : a < n) (hb : b < n) :
    cdist n a b = if a ≤ b then b - a else b + n - a := by
  unfold cdist
  rw [Nat.mod_eq_of_lt ha, Nat.mod_eq_of_lt hb]
  rcases Nat.lt_or_ge b a with h | h
  · rw [if_neg (by omega)]
    exact Nat.mod_eq_of_lt (by omega)
  · rw [if_pos h, show b + n - a = (b - a) + n by omega, Nat.add_mod_right,
      Nat.mod_eq_of_lt (by omega)]

theorem cdist_lt {n a b : Nat} (ha : a < n) (hb : b < n) : cdist n a b < n := by
  rw [cdist_eq ha hb]
  split <;> omega

theorem cdist_self {n a : Nat} (ha : a < n) : cdist n a a = 0 := by
  rw [cdist_eq ha ha]
  simp

theorem add_cdist_mod {n a b : Nat} (ha : a < n) (hb : b < n) :
    (a + cdist n a b) % n = b := by
  rw [cdist_eq ha hb]
  split
  · rw [show a + (b - a) = b by omega, Nat.mod_eq_of_lt hb]
  · rw [show a + (b + n - a) = b + n by omega, Nat.add_mod_right, Nat.mod_eq_of_lt hb]

theorem cdist_of_add {n a : Nat} (ha : a < n) (d : Nat) :
    cdist n a ((a + d) % n) = d % n := by
  have hn : 0 < n := Nat.lt_of_le_of_lt (Nat.zero_le a) ha
  have hd : d % n < n := Nat.mod_lt d hn
  have h1 : (a + d) % n = (a + d % n) % n := (Nat.add_mod_mod a d n).symm
  rcases Nat.lt_or_ge (a + d % n) n with h2 | h2
  · rw [h1, Nat.mod_eq_of_lt h2]
    unfold cdist
    rw [Nat.mod_eq_of_lt ha, Nat.mod_eq_of_lt h2,
      show a + d % n + n - a = d % n + n by omega, Nat.add_mod_right, Nat.mod_eq_of_lt hd]
  · have h3 : (a + d % n) % n = a + d % n - n := by
      rw [Nat.mod_eq_sub_mod h2, Nat.mod_eq_of_lt (by omega)]
    rw [h1, h3]
    unfold cdist
    rw [Nat.mod_eq_of_lt (show a + d % n - n < n by omega), Nat.mod_eq_of_lt ha,
      show a + d % n - n + n - a = d % n by omega, Nat.mod_eq_of_lt hd]

theorem addmod_lt {n : Nat} (hn : 0 < n) (a d : Nat) : (a + d) % n < n :=
  Nat.mod_lt _ hn

theorem add_offset_mod {n : Nat} (h x : Nat) (d : Nat) :
    ((h + x) % n + d) % n = (h + (x + d)) % n := by
  rw [Nat.mod_add_mod]
  ring_nf

theorem cdist_shift {n : Nat} (hn : 0 < n) (h : Nat) {x y : Nat} (hx : x < n) (hy : y < n) :
    cdist n ((h + x) % n) ((h + y) % n) = cdist n x y := by
  have hA : (h + x) % n < n := Nat.mod_lt _ hn
  have hc : cdist n x y < n := cdist_lt hx hy
  have hB : (h + y) % n = ((h + x) % n + cdist n x y) % n := by
    rw [Nat.mod_add_mod, Nat.add_assoc]
    have : (x + cdist n x y) % n = y := add_cdist_mod hx hy
    conv_lhs => rw [show h + y = h + ((x + cdist n x y) % n) by rw [this]]
    rw [Nat.add_mod_mod]
  rw [hB, cdist_of_add hA, Nat.mod_eq_of_lt hc]

theorem offset_inj {n : Nat} (h : Nat) {x y : Nat} (hx : x < n) (hy : y < n)
    (heq : (h + x) % n = (h + y) % n) : x = y := by
  have hn : 0 < n := Nat.lt_of_le_of_lt (Nat.zero_le x) hx
  have h0 : cdist n ((h + x) % n) ((h + y) % n) = 0 := by
    rw [heq]
    exact cdist_self (Nat.mod_lt _ hn)
  rw [cdist_shift hn h hx hy] at h0
  rw [cdist_eq hx hy] at h0
  revert h0
  split <;> omega

theorem two_pow_testBit_of_between {x g : Nat} (h1 : 2 ^ g ≤ x) (h2 : x < 2 ^ (g + 1)) :
    x.testBit g = true := by
  rw [Nat.testBit_to_div_mod]
  have h4 : 0 < 2 ^ g := Nat.two_pow_pos g
  have hq1 : 1 ≤ x / 2 ^ g := (Nat.le_div_iff_mul_le h4).mpr (by omega)
  have hq2 : x / 2 ^ g < 2 := by
    rw [Nat.div_lt_iff_lt_mul h4]
    have h3 : 2 ^ (g + 1) = 2 * 2 ^ g := by ring
    omega
  have : x / 2 ^ g = 1 := by omega
  simp [this]

/-- A positive number with `n &&& (n-1) = 0` is a power of two. -/
theorem pow_two_of_and_pred_eq_zero {m : Nat} (hm : 0 < m) (h : m &&& (m - 1) = 0) :
    m = 2 ^ Nat.log2 m := by
  by_contra hne
  have hg1 : 2 ^ Nat.log2 m ≤ m := Nat.log2_self_le (by omega)
  have hg2 : m < 2 ^ (Nat.log2 m + 1) := Nat.lt_log2_self
  have hgt : 2 ^ Nat.log2 m < m := by omega
  have hb1 : m.testBit (Nat.log2 m) = true := two_pow_testBit_of_between hg1 hg2
  have hb2 : (m - 1).testBit (Nat.log2 m) = true :=
    two_pow_testBit_of_between (by omega) (by omega)
  have : (m &&& (m - 1)).testBit (Nat.log2 m) = true := by
    rw [Nat.testBit_and, hb1, hb2]
    rfl
  rw [h, Nat.zero_testBit] at this
  exact Bool.false_ne_true this

theorem growLoop_of_ge {f M cur : Nat} (h : M ≤ cur) : growLoop f M cur = cur := by
  cases f with
  | zero => rfl
  | succ f => rw [growLoop, if_neg (by omega)]

theorem growLoop_of_lt {f M cur : Nat} (h0 : 0 < cur) (h : cur < M) :
    growLoop (f + 1) M cur = growLoop f M (cur * 2) := by
  conv_lhs => rw [growLoop]
  rw [if_pos ⟨h0, h⟩]

theorem growLoop_two_pow (M : Nat) (hM : ∃ e, M ≤ 2 ^ e) :
    ∀ b a f, Nat.find hM ≤ a + b → Nat.find hM ≤ a + f →
      growLoop f M (2 ^ a) = 2 ^ max a (Nat.find hM) := by
  intro b
  induction b with
  | zero =>
    intro a f ha _
    have h1 : M ≤ 2 ^ a :=
      le_trans (Nat.find_spec hM) (Nat.pow_le_pow_right (by omega) (by omega))
    rw [growLoop_of_ge h1, Nat.max_eq_left (by omega)]
  | succ b ih =>
    intro a f ha hf
    rcases Nat.lt_or_ge (2 ^ a) M with hcur | hcur
    · have haE : a < Nat.find hM := by
        by_contra hcon
        have : M ≤ 2 ^ a :=
          le_trans (Nat.find_spec hM) (Nat.pow_le_pow_right (by omega) (by omega))
        omega
      obtain ⟨f', rfl⟩ : ∃ f', f = f' + 1 := ⟨f - 1, by omega⟩
      rw [growLoop_of_lt (Nat.two_pow_pos a) hcur, show 2 ^ a * 2 = 2 ^ (a + 1) by ring,
        ih (a + 1) f' (by omega) (by omega), Nat.max_eq_right (by omega),
        Nat.max_eq_right (by omega)]
    · have hE : Nat.find hM ≤ a := Nat.find_le hcur
      rw [growLoop_of_ge hcur, Nat.max_eq_left hE]

theorem specGrowthTarget_spec (t : Nat) : max 8 (4 * t) ≤ specGrowthTarget t := by
  have hElem : ∃ e, max 8 (4 * t) ≤ 2 ^ e := ⟨max 8 (4 * t), Nat.le_of_lt (Nat.lt_two_pow _)⟩
  have hst : specGrowthTarget t = 2 ^ Nat.find hElem := rfl
  rw [hst]
  exact Nat.find_spec hElem

theorem specGrowthTarget_eq_pow {t f : Nat} (h1 : max 8 (4 * t) ≤ 2 ^ f)
    (h2 : ∀ g < f, ¬ max 8 (4 * t) ≤ 2 ^ g) : specGrowthTarget t = 2 ^ f := by
  have hElem : ∃ e, max 8 (4 * t) ≤ 2 ^ e := ⟨max 8 (4 * t), Nat.le_of_lt (Nat.lt_two_pow _)⟩
  have hst : specGrowthTarget t = 2 ^ Nat.find hElem := rfl
  rw [hst]
  congr 1
  exact (Nat.find_eq_iff hElem).mpr ⟨h1, h2⟩

theorem growLoop_eight {M : Nat} (hM : ∃ e, M ≤ 2 ^ e) (h3 : 3 ≤ Nat.find hM) :
    growLoop M M 8 = 2 ^ Nat.find hM := by
  have hlow : 2 ^ (Nat.find hM - 1) < M := by
    have := Nat.find_min hM (show Nat.find hM - 1 < Nat.find hM by omega)
    omega
  have hself : Nat.find hM - 1 < 2 ^ (Nat.find hM - 1) := Nat.lt_two_pow _
  have hfM : Nat.find hM ≤ 3 + M := by omega
  have hg := growLoop_two_pow M hM (Nat.find hM) 3 M (by omega) hfM
  rw [Nat.max_eq_right h3] at hg
  exact hg

theorem create_capacity_nentries_eq (c : Nat) :
    create_capacity_nentries c = specGrowthTarget c := by
  have hElem : ∃ e, max 8 (4 * c) ≤ 2 ^ e := ⟨max 8 (4 * c), Nat.le_of_lt (Nat.lt_two_pow _)⟩
  have hst : specGrowthTarget c = 2 ^ Nat.find hElem := rfl
  have hMeq : (if 4 * c < 8 then 8 else 4 * c) = max 8 (4 * c) := by split <;> omega
  have hM8 : 8 ≤ max 8 (4 * c) := le_max_left _ _
  have hfind : max 8 (4 * c) ≤ 2 ^ Nat.find hElem := Nat.find_spec hElem
  unfold create_capacity_nentries
  simp only [THASH_FACTOR_REALLOC, hMeq]
  rw [hst]
  by_cases hp : (max 8 (4 * c)) &&& (max 8 (4 * c) - 1) = 0
  · rw [if_neg (by simp [hp])]
    have hpow : max 8 (4 * c) = 2 ^ Nat.log2 (max 8 (4 * c)) :=
      pow_two_of_and_pred_eq_zero (by omega) hp
    have hE1 : Nat.find hElem ≤ Nat.log2 (max 8 (4 * c)) := Nat.find_le (le_of_eq hpow)
    have hE2 : Nat.log2 (max 8 (4 * c)) ≤ Nat.find hElem := by
      apply (Nat.pow_le_pow_iff_right (show 1 < 2 by omega)).mp
      calc 2 ^ Nat.log2 (max 8 (4 * c)) = max 8 (4 * c) := hpow.symm
        _ ≤ 2 ^ Nat.find hElem := hfind
    calc max 8 (4 * c) = 2 ^ Nat.log2 (max 8 (4 * c)) := hpow
      _ = 2 ^ Nat.find hElem := by rw [Nat.le_antisymm hE2 hE1]
  · rw [if_pos (by simp [hp])]
    have hE3 : 3 ≤ Nat.find hElem := by
      have h23 : (2 : Nat) ^ 3 ≤ 2 ^ Nat.find hElem := le_trans (by omega) hfind
      exact (Nat.pow_le_pow_iff_right (by omega)).mp h23
    exact growLoop_eight hElem hE3

theorem specGrowthTarget_pow (t : Nat) : ∃ e, 3 ≤ e ∧ specGrowthTarget t = 2 ^ e := by
  have hElem : ∃ e, max 8 (4 * t) ≤ 2 ^ e := ⟨max 8 (4 * t), Nat.le_of_lt (Nat.lt_two_pow _)⟩
  have hst : specGrowthTarget t = 2 ^ Nat.find hElem := rfl
  have hfind : max 8 (4 * t) ≤ 2 ^ Nat.find hElem := Nat.find_spec hElem
  have h23 : (2 : Nat) ^ 3 ≤ 2 ^ Nat.find hElem := le_trans (by omega) hfind
  exact ⟨Nat.find hElem, (Nat.pow_le_pow_iff_right (by omega)).mp h23, hst⟩

/-- Key fact for C4: on any reachable trigger state (`2*size ≤ n = 2^e < 2*(size+1)`,
`n ≥ 8`) the capacity the code computes, `create_capacity(size+2)` with `size`
the length after the triggering insert is `size+1`... the code's target `s+2`
and the spec's target `s+1` round to the same power of two. -/
theorem specGrowthTarget_trigger_eq {n s e : Nat} (hn : n = 2 ^ e) (he : 3 ≤ e)
    (h1 : 2 * s ≤ n) (h2 : n < 2 * (s + 1)) :
    specGrowthTarget (s + 2) = specGrowthTarget (s + 1) := by
  have hpe : (2 : Nat) ^ e = 2 * 2 ^ (e - 1) := by
    conv_lhs => rw [show e = (e - 1) + 1 by omega]
    rw [pow_succ]
    ring
  have hs : s = 2 ^ (e - 1) := by omega
  have hq : (2 : Nat) ^ (e + 1) = 2 * 2 ^ e := by
    rw [pow_succ]
    ring
  have hr : (2 : Nat) ^ (e + 2) = 4 * 2 ^ e := by
    rw [pow_add]
    ring
  have h8 : (8 : Nat) ≤ 2 ^ e := by
    calc (8 : Nat) = 2 ^ 3 := by norm_num
    _ ≤ 2 ^ e := Nat.pow_le_pow_right (by omega) he
  have hle : ∀ g, g < e + 2 → (2 : Nat) ^ g ≤ 2 ^ (e + 1) :=
    fun g hg => Nat.pow_le_pow_right (by omega) (by omega)
  have key : ∀ t, 4 * s + 4 ≤ 4 * t → 4 * t ≤ 4 * s + 8 → specGrowthTarget t = 2 ^ (e + 2) := by
    intro t ht1 ht2
    apply specGrowthTarget_eq_pow
    · have : 4 * t ≤ 2 ^ (e + 2) := by
        rw [hr]
        omega
      omega
    · intro g hg hcon
      have := hle g hg
      rw [hq] at this
      omega
  rw [key (s + 2) (by omega) (by omega), key (s + 1) (by omega) (by omega)]

/-! ## Slot-array toolkit -/

theorem slotAt_eq_getElem {l : List (Slot K V)} {i : Nat} (h : i < l.length) :
    slotAt l i = l[i] := by
  simp [slotAt, List.getD, List.getElem?_eq_getElem h]

theorem slotAt_of_ge {l : List (Slot K V)} {i : Nat} (h : l.length ≤ i) :
    slotAt l i = none := by
  simp [slotAt, List.getD, List.getElem?_eq_none h]

theorem slotAt_cons_zero (s : Slot K V) (l : List (Slot K V)) : slotAt (s :: l) 0 = s := rfl

theorem slotAt_cons_succ (s : Slot K V) (l : List (Slot K V)) (i : Nat) :
    slotAt (s :: l) (i + 1) = slotAt l i := by
  simp [slotAt, List.getD]

theorem slotAt_set_self {l : List (Slot K V)} {i : Nat} (h : i < l.length) (s : Slot K V) :
    slotAt (l.set i s) i = s := by
  rw [slotAt_eq_getElem (by simpa using h)]
  simp [List.getElem_set, h]

theorem slotAt_set_ne {l : List (Slot K V)} {i j : Nat} (h : i ≠ j) (s : Slot K V) :
    slotAt (l.set i s) j = slotAt l j := by
  simp [slotAt, List.getD, List.getElem?_set_ne h]

theorem slotAt_replicate (m i : Nat) :
    slotAt (List.replicate m (none : Slot K V)) i = none := by
  rcases Nat.lt_or_ge i m with h | h
  · rw [slotAt_eq_getElem (by simpa using h)]
    simp
  · exact slotAt_of_ge (by simpa using h)

theorem occPairs_cons_none (l : List (Slot K V)) : occPairs (none :: l) = occPairs l := rfl

theorem occPairs_cons_some (p : K × V) (l : List (Slot K V)) :
    occPairs (some p :: l) = p :: occPairs l := rfl

theorem occPairs_append (l1 l2 : List (Slot K V)) :
    occPairs (l1 ++ l2) = occPairs l1 ++ occPairs l2 :=
  List.filterMap_append l1 l2 id

theorem occPairs_replicate (m : Nat) :
    occPairs (List.replicate m (none : Slot K V)) = [] := by
  induction m with
  | zero => rfl
  | succ m ih => rw [List.replicate_succ]; exact ih

theorem mem_occPairs {l : List (Slot K V)} {p : K × V} :
    p ∈ occPairs l ↔ ∃ i, i < l.length ∧ slotAt l i = some p := by
  unfold occPairs
  rw [List.mem_filterMap]
  constructor
  · rintro ⟨s, hs, hid⟩
    cases s with
    | none => simp at hid
    | some q =>
      obtain ⟨i, hi, hg⟩ := List.mem_iff_getElem.mp hs
      refine ⟨i, hi, ?_⟩
      rw [slotAt_eq_getElem hi, hg]
      simpa using hid
  · rintro ⟨i, hi, hg⟩
    refine ⟨some p, ?_, rfl⟩
    rw [slotAt_eq_getElem hi] at hg
    rw [← hg]
    exact List.getElem_mem hi

theorem set_eq_take_cons_drop {α : Type _} {l : List α} {i : Nat} (h : i < l.length) (x : α) :
    l.set i x = l.take i ++ x :: l.drop (i + 1) := by
  induction l generalizing i with
  | nil => simp at h
  | cons a l ih =>
    cases i with
    | zero => simp
    | succ i' => simp [ih (by simpa using h)]

theorem self_eq_take_cons_drop {α : Type _} {l : List α} {i : Nat} (h : i < l.length) :
    l = l.take i ++ l[i] :: l.drop (i + 1) := by
  conv_lhs => rw [← List.take_append_drop i l, List.drop_eq_getElem_cons h]

theorem occPairs_decomp {l : List (Slot K V)} {i : Nat} (h : i < l.length) :
    occPairs l = occPairs (l.take i) ++ (slotAt l i).toList ++ occPairs (l.drop (i + 1)) := by
  conv_lhs => rw [self_eq_take_cons_drop h]
  rw [slotAt_eq_getElem h, occPairs_append]
  cases hg : l[i] <;> simp [occPairs, List.filterMap_cons, hg]

theorem occPairs_set_decomp {l : List (Slot K V)} {i : Nat} (h : i < l.length) (s : Slot K V) :
    occPairs (l.set i s) =
      occPairs (l.take i) ++ s.toList ++ occPairs (l.drop (i + 1)) := by
  rw [set_eq_take_cons_drop h, occPairs_append]
  cases s <;> simp [occPairs, List.filterMap_cons]

theorem occCount_lt_iff_exists_none {l : List (Slot K V)} (h : occCount l < l.length) :
    ∃ i, i < l.length ∧ slotAt l i = none := by
  induction l with
  | nil => simp at h
  | cons s rest ih =>
    cases s with
    | none => exact ⟨0, by simp, rfl⟩
    | some p =>
      have h' : occCount rest < rest.length := by
        have : occCount (some p :: rest) = occCount rest + 1 := by
          simp [occCount, occPairs_cons_some]
        simp only [List.length_cons] at h
        omega
      obtain ⟨i, hi, hs⟩ := ih h'
      exact ⟨i + 1, by simpa using hi, by rwa [slotAt_cons_succ]⟩

theorem countP_le_one_of_pairwise {α : Type _} {p : α → Bool} {l : List α}
    (h : l.Pairwise fun a b => ¬(p a = true ∧ p b = true)) : l.countP p ≤ 1 := by
  induction l with
  | nil => simp
  | cons a l ih =>
    rw [List.countP_cons]
    rcases List.pairwise_cons.mp h with ⟨ha, hl⟩
    by_cases hpa : p a = true
    · have hz : l.countP p = 0 := by
        rw [List.countP_eq_zero]
        intro b hb hpb
        exact ha b hb ⟨hpa, hpb⟩
      simp [hpa, hz]
    · simp [hpa, ih hl]

theorem find?_eq_some_unique {α : Type _} {p : α → Bool} {l : List α} (hu : l.countP p ≤ 1)
    {a : α} : l.find? p = some a ↔ a ∈ l ∧ p a = true := by
  constructor
  · intro h
    exact ⟨List.mem_of_find?_eq_some h, List.find?_some h⟩
  · rintro ⟨hmem, hpa⟩
    induction l with
    | nil => simp at hmem
    | cons b l ih =>
      rw [List.countP_cons] at hu
      by_cases hpb : p b = true
      · rw [if_pos hpb] at hu
        have hz : l.countP p = 0 := by omega
        rcases List.mem_cons.mp hmem with rfl | hal
        · rw [List.find?_cons_of_pos _ hpb]
        · exact absurd hpa ((List.countP_eq_zero.mp hz) a hal)
      · rw [if_neg hpb] at hu
        rcases List.mem_cons.mp hmem with rfl | hal
        · exact absurd hpa hpb
        · rw [List.find?_cons_of_neg _ (by simp [hpb])]
          exact ih (by omega) hal

theorem distinct_of_indices {keq : K → K → Bool} {l : List (Slot K V)}
    (hd : DistinctKeys keq l) {i j : Nat} (hij : i < j) (hj : j < l.length)
    {p q : K × V} (hp : slotAt l i = some p) (hq : slotAt l j = some q) :
    keq p.1 q.1 = false := by
  induction l generalizing i j with
  | nil => simp at hj
  | cons s rest ih =>
    have hdrest : DistinctKeys keq rest := by
      cases s with
      | none => exact hd
      | some r =>
        rw [DistinctKeys, occPairs_cons_some] at hd
        exact (List.pairwise_cons.mp hd).2
    cases i with
    | zero =>
      have hs : s = some p := by rwa [slotAt_cons_zero] at hp
      subst hs
      rw [DistinctKeys, occPairs_cons_some] at hd
      obtain ⟨j', rfl⟩ : ∃ j', j = j' + 1 := ⟨j - 1, by omega⟩
      have hqmem : q ∈ occPairs rest := by
        rw [slotAt_cons_succ] at hq
        exact mem_occPairs.mpr ⟨j', by simpa using hj, hq⟩
      exact (List.pairwise_cons.mp hd).1 q hqmem
    | succ i' =>
      obtain ⟨j', rfl⟩ : ∃ j', j = j' + 1 := ⟨j - 1, by omega⟩
      rw [slotAt_cons_succ] at hp hq
      exact ih hdrest (by omega) (by simpa using hj) hp hq

/-! ## Probe characterization -/

theorem stopB_of_none {keq : K → K → Bool} {l : List (Slot K V)} {k : K} {i : Nat}
    (h : slotAt l i = none) : stopB keq l k i = true := by
  unfold stopB
  rw [h]

theorem stopB_elim_true {keq : K → K → Bool} {l : List (Slot K V)} {k : K} {i : Nat}
    (h : stopB keq l k i = true) :
    slotAt l i = none ∨ ∃ k' v', slotAt l i = some (k', v') ∧ keq k k' = true := by
  unfold stopB at h
  cases hs : slotAt l i with
  | none => exact Or.inl rfl
  | some p =>
    obtain ⟨k', v'⟩ := p
    rw [hs] at h
    exact Or.inr ⟨k', v', rfl, h⟩

theorem stopB_elim_false {keq : K → K → Bool} {l : List (Slot K V)} {k : K} {i : Nat}
    (h : stopB keq l k i = false) :
    ∃ k' v', slotAt l i = some (k', v') ∧ keq k k' = false := by
  unfold stopB at h
  cases hs : slotAt l i with
  | none =>
    rw [hs] at h
    exact absurd h (by simp)
  | some p =>
    obtain ⟨k', v'⟩ := p
    rw [hs] at h
    exact ⟨k', v', rfl, h⟩

theorem probeLoop_succ (keq : K → K → Bool) (l : List (Slot K V)) (k : K) (idx f : Nat) :
    probeLoop keq l k idx (f + 1) =
      if stopB keq l k idx then some idx
      else probeLoop keq l k ((idx + 1) &&& (l.length - 1)) f := rfl

theorem probeLoop_eq_some {keq : K → K → Bool} {l : List (Slot K V)} {k : K} {e : Nat}
    (hn : l.length = 2 ^ e) :
    ∀ (m start fuel : Nat), start < l.length → m < fuel →
      stopB keq l k ((start + m) % l.length) = true →
      (∀ d, d < m → stopB keq l k ((start + d) % l.length) = false) →
      probeLoop keq l k start fuel = some ((start + m) % l.length) := by
  intro m
  induction m with
  | zero =>
    intro start fuel hstart hfuel hstop _
    obtain ⟨fuel', rfl⟩ : ∃ f', fuel = f' + 1 := ⟨fuel - 1, by omega⟩
    have h0 : (start + 0) % l.length = start := by
      rw [Nat.add_zero, Nat.mod_eq_of_lt hstart]
    rw [h0] at hstop
    rw [h0, probeLoop_succ, if_pos hstop]
  | succ m ih =>
    intro start fuel hstart hfuel hstop hmin
    obtain ⟨fuel', rfl⟩ : ∃ f', fuel = f' + 1 := ⟨fuel - 1, by omega⟩
    have hs0 : stopB keq l k start = false := by
      have h0 := hmin 0 (by omega)
      rwa [Nat.add_zero, Nat.mod_eq_of_lt hstart] at h0
    rw [probeLoop_succ, if_neg (by simp [hs0]), mask_eq_mod e hn]
    have hstart' : (start + 1) % l.length < l.length :=
      Nat.mod_lt _ (by rw [hn]; exact Nat.two_pow_pos e)
    have hshift : ∀ d, ((start + 1) % l.length + d) % l.length =
        (start + (d + 1)) % l.length := by
      intro d
      rw [Nat.mod_add_mod]
      congr 1
      omega
    have hres : (start + (m + 1)) % l.length = ((start + 1) % l.length + m) % l.length :=
      (hshift m).symm
    rw [hres]
    apply ih _ fuel' hstart' (by omega)
    · rw [hshift m]
      exact hstop
    · intro d hd
      rw [hshift d]
      exact hmin (d + 1) (by omega)

theorem exists_least_stop {keq : K → K → Bool} {l : List (Slot K V)} {k : K} {start : Nat}
    (hstart : start < l.length)
    (hemp : ∃ j, j < l.length ∧ slotAt l j = none) :
    ∃ m, m < l.length ∧ stopB keq l k ((start + m) % l.length) = true ∧
      ∀ d, d < m → stopB keq l k ((start + d) % l.length) = false := by
  obtain ⟨j, hj, hjn⟩ := hemp
  have hstopj : stopB keq l k ((start + cdist l.length start j) % l.length) = true := by
    rw [add_cdist_mod hstart hj]
    exact stopB_of_none hjn
  have hp : ∃ d, stopB keq l k ((start + d) % l.length) = true := ⟨_, hstopj⟩
  refine ⟨Nat.find hp, ?_, Nat.find_spec hp, fun d hd => ?_⟩
  · have h1 : Nat.find hp ≤ cdist l.length start j := Nat.find_le hstopj
    have h2 := cdist_lt hstart hj
    omega
  · have := Nat.find_min hp hd
    simpa using this

theorem homeIdx_lt (hash : K → Nat) {n e : Nat} (hn : n = 2 ^ e) (k : K) :
    homeIdx hash n k < n := by
  unfold homeIdx
  rw [mask_eq_mod e hn]
  exact Nat.mod_lt _ (by rw [hn]; exact Nat.two_pow_pos e)

/-- Termination and shape of the probe: with an empty slot present, the probe
returns the index of the least stopping offset from the home index. -/
theorem probe_spec {hash : K → Nat} {keq : K → K → Bool} {t : T K V} {k : K} {e : Nat}
    (hn : t.entries.length = 2 ^ e)
    (hemp : ∃ j, j < t.entries.length ∧ slotAt t.entries j = none) :
    ∃ m, m < t.entries.length ∧
      probe hash keq t k =
        some ((homeIdx hash t.entries.length k + m) % t.entries.length) ∧
      stopB keq t.entries k
        ((homeIdx hash t.entries.length k + m) % t.entries.length) = true ∧
      ∀ d, d < m →
        stopB keq t.entries k
          ((homeIdx hash t.entries.length k + d) % t.entries.length) = false := by
  have hh : homeIdx hash t.entries.length k < t.entries.length := homeIdx_lt hash hn k
  obtain ⟨m, hm, hstop, hmin⟩ := exists_least_stop hh hemp
  exact ⟨m, hm, probeLoop_eq_some hn m _ _ hh (by omega) hstop hmin, hstop, hmin⟩

/-! ## Lookup results of the probe -/

theorem homeIdx_congr {hash : K → Nat} {keq : K → K → Bool} (hc : HContract hash keq)
    {n : Nat} {a b : K} (h : keq a b = true) : homeIdx hash n a = homeIdx hash n b := by
  unfold homeIdx
  rw [hc.hash_eq a b h]

theorem reachAtB_elim {hash : K → Nat} {l : List (Slot K V)} {i : Nat} {k : K} {v : V}
    (hr : reachAtB hash l i = true) (hs : slotAt l i = some (k, v)) :
    ∀ d, d < cdist l.length (homeIdx hash l.length k) i →
      (slotAt l ((homeIdx hash l.length k + d) % l.length)).isSome = true := by
  unfold reachAtB at hr
  rw [hs] at hr
  intro d hd
  exact List.all_eq_true.mp hr d (List.mem_range.mpr hd)

theorem reachAtB_intro {hash : K → Nat} {l : List (Slot K V)} {i : Nat}
    (h : ∀ k v, slotAt l i = some (k, v) →
      ∀ d, d < cdist l.length (homeIdx hash l.length k) i →
        (slotAt l ((homeIdx hash l.length k + d) % l.length)).isSome = true) :
    reachAtB hash l i = true := by
  unfold reachAtB
  rcases hs : slotAt l i with _ | ⟨k, v⟩
  · rfl
  · apply List.all_eq_true.mpr
    intro d hd
    exact h k v hs d (List.mem_range.mp hd)

theorem keq_trans_chain {hash : K → Nat} {keq : K → K → Bool} (hc : HContract hash keq)
    {k a b : K} (h1 : keq k a = true) (h2 : keq k b = true) : keq a b = true :=
  hc.trans a k b (hc.symm k a h1) h2

theorem probe_finds_present {hash : K → Nat} {keq : K → K → Bool} (hc : HContract hash keq)
    {t : T K V} {k : K} {e : Nat} (hn : t.entries.length = 2 ^ e)
    (hdis : DistinctKeys keq t.entries) (hreach : Reach hash t.entries)
    {i : Nat} (hi : i < t.entries.length) {k0 : K} {v0 : V}
    (hs : slotAt t.entries i = some (k0, v0)) (hk : keq k k0 = true) :
    probe hash keq t k = some i := by
  have hpos : 0 < t.entries.length := by rw [hn]; exact Nat.two_pow_pos e
  have hh0 : homeIdx hash t.entries.length k0 < t.entries.length := homeIdx_lt hash hn k0
  have hhome : homeIdx hash t.entries.length k = homeIdx hash t.entries.length k0 :=
    homeIdx_congr hc hk
  have hm0 : (homeIdx hash t.entries.length k0 +
      cdist t.entries.length (homeIdx hash t.entries.length k0) i) % t.entries.length = i :=
    add_cdist_mod hh0 hi
  have hstop : stopB keq t.entries k ((homeIdx hash t.entries.length k0 +
      cdist t.entries.length (homeIdx hash t.entries.length k0) i) % t.entries.length)
        = true := by
    rw [hm0]
    unfold stopB
    rw [hs]
    exact hk
  have hmin : ∀ d, d < cdist t.entries.length (homeIdx hash t.entries.length k0) i →
      stopB keq t.entries k ((homeIdx hash t.entries.length k0 + d) % t.entries.length)
        = false := by
    intro d hd
    have his := reachAtB_elim (hreach i hi) hs d hd
    obtain ⟨p, hps⟩ := Option.isSome_iff_exists.mp his
    obtain ⟨k1, v1⟩ := p
    by_contra hcon
    have hstop1 : stopB keq t.entries k
        ((homeIdx hash t.entries.length k0 + d) % t.entries.length) = true := by
      cases hb : stopB keq t.entries k
          ((homeIdx hash t.entries.length k0 + d) % t.entries.length)
      · exact absurd hb hcon
      · rfl
    rcases stopB_elim_true hstop1 with hnone | ⟨k2, v2, hs2, hk2⟩
    · rw [hps] at hnone
      simp at hnone
    · have hne : (homeIdx hash t.entries.length k0 + d) % t.entries.length ≠ i := by
        intro heq
        rw [← hm0] at heq
        have := offset_inj (homeIdx hash t.entries.length k0)
          (Nat.lt_trans hd (cdist_lt hh0 hi)) (cdist_lt hh0 hi) heq
        omega
      have hkk : keq k0 k2 = true := keq_trans_chain hc hk hk2
      rcases Nat.lt_or_ge ((homeIdx hash t.entries.length k0 + d) % t.entries.length) i
        with hlt | hge
      · have := distinct_of_indices hdis hlt hi hs2 hs
        have := hc.symm _ _ hkk
        simp_all
      · have hlt2 : i < (homeIdx hash t.entries.length k0 + d) % t.entries.length := by
          omega
        have := distinct_of_indices hdis hlt2 (addmod_lt hpos _ _) hs hs2
        simp_all
  unfold probe
  rw [hhome]
  rw [probeLoop_eq_some hn _ _ _ hh0 (cdist_lt hh0 hi) hstop hmin, hm0]

theorem lookupL_eq_none_iff {keq : K → K → Bool} {l : List (Slot K V)} {k : K} :
    lookupL keq l k = none ↔ ∀ p ∈ occPairs l, keq k p.1 = false := by
  unfold lookupL
  rw [List.find?_eq_none]
  constructor
  · intro h p hp
    have := h p hp
    simpa using this
  · intro h p hp
    simp [h p hp]

theorem countP_match_le_one {hash : K → Nat} {keq : K → K → Bool} (hc : HContract hash keq)
    {l : List (Slot K V)} (hdis : DistinctKeys keq l) (k : K) :
    (occPairs l).countP (fun p => keq k p.1) ≤ 1 := by
  apply countP_le_one_of_pairwise
  apply hdis.imp
  intro a b hab ⟨h1, h2⟩
  have := keq_trans_chain hc h1 h2
  simp_all

theorem lookupL_eq_some_iff {hash : K → Nat} {keq : K → K → Bool} (hc : HContract hash keq)
    {l : List (Slot K V)} (hdis : DistinctKeys keq l) {k : K} {p : K × V} :
    lookupL keq l k = some p ↔ p ∈ occPairs l ∧ keq k p.1 = true :=
  find?_eq_some_unique (countP_match_le_one hc hdis k)

theorem probe_finds_absent {hash : K → Nat} {keq : K → K → Bool} (t : T K V) {k : K}
    {e : Nat} (hn : t.entries.length = 2 ^ e)
    (hemp : ∃ j, j < t.entries.length ∧ slotAt t.entries j = none)
    (habs : ∀ p ∈ occPairs t.entries, keq k p.1 = false) :
    ∃ m, m < t.entries.length ∧
      probe hash keq t k =
        some ((homeIdx hash t.entries.length k + m) % t.entries.length) ∧
      slotAt t.entries ((homeIdx hash t.entries.length k + m) % t.entries.length) = none ∧
      ∀ d, d < m →
        stopB keq t.entries k
          ((homeIdx hash t.entries.length k + d) % t.entries.length) = false := by
  have hpos : 0 < t.entries.length := by rw [hn]; exact Nat.two_pow_pos e
  obtain ⟨m, hm, hp, hstop, hmin⟩ := probe_spec hn hemp
  rcases stopB_elim_true hstop with hnone | ⟨k', v', hs, hk⟩
  · exact ⟨m, hm, hp, hnone, hmin⟩
  · exfalso
    have hmem : (k', v') ∈ occPairs t.entries :=
      mem_occPairs.mpr ⟨_, addmod_lt hpos _ _, hs⟩
    have := habs _ hmem
    simp_all

/-- The WF invariants guarantee an empty slot. -/
theorem wf_exists_none {hash : K → Nat} {keq : K → K → Bool} {t : T K V}
    (hwf : WF hash keq t) : ∃ j, j < t.entries.length ∧ slotAt t.entries j = none := by
  obtain ⟨⟨e, helt, hn⟩, h8, hsz, hload, hdis, hreach⟩ := hwf
  apply occCount_lt_iff_exists_none
  omega

/-- `get` under the invariants: exactly the abstract lookup. -/
theorem get_spec {hash : K → Nat} {keq : K → K → Bool} (hc : HContract hash keq)
    {t : T K V} (hwf : WF hash keq t) (k : K) :
    get hash keq t k = some ((lookupL keq t.entries k).map fun p => p.2) := by
  obtain ⟨⟨e, helt, hn⟩, h8, hsz, hload, hdis, hreach⟩ := hwf
  have hemp := wf_exists_none (⟨⟨e, helt, hn⟩, h8, hsz, hload, hdis, hreach⟩ :
    WF hash keq t)
  cases hl : lookupL keq t.entries k with
  | some p =>
    obtain ⟨hpmem, hpk⟩ := (lookupL_eq_some_iff hc hdis).mp hl
    obtain ⟨i, hi, hs⟩ := mem_occPairs.mp hpmem
    obtain ⟨k0, v0⟩ := p
    have hp := probe_finds_present hc hn hdis hreach hi hs hpk
    unfold get
    rw [hp]
    simp [hs]
  | none =>
    have habs := lookupL_eq_none_iff.mp hl
    obtain ⟨m, hm, hp, hnone, _⟩ := probe_finds_absent t hn hemp habs
    unfold get
    rw [hp]
    simp [hnone]

/-! ## Insert/update: effect on the slot array and the invariants -/

theorem pairwise_insert_middle {α : Type _} {R : α → α → Prop} {X Y : List α} {a : α}
    (h : (X ++ Y).Pairwise R) (hX : ∀ x ∈ X, R x a) (hY : ∀ y ∈ Y, R a y) :
    (X ++ a :: Y).Pairwise R := by
  rw [List.pairwise_append] at h ⊢
  obtain ⟨hX2, hY2, hcross⟩ := h
  refine ⟨hX2, List.pairwise_cons.mpr ⟨hY, hY2⟩, ?_⟩
  intro x hx z hz
  rcases List.mem_cons.mp hz with rfl | hz'
  · exact hX x hx
  · exact hcross x hx z hz'

theorem occCount_insert {l : List (Slot K V)} {i : Nat} (h : i < l.length)
    (hnone : slotAt l i = none) (p : K × V) :
    occCount (l.set i (some p)) = occCount l + 1 := by
  unfold occCount
  rw [occPairs_set_decomp h, occPairs_decomp h, hnone]
  simp
  omega

theorem occPairs_insert_perm {l : List (Slot K V)} {i : Nat} (h : i < l.length)
    (hnone : slotAt l i = none) (p : K × V) :
    List.Perm (occPairs (l.set i (some p))) (p :: occPairs l) := by
  rw [occPairs_set_decomp h, occPairs_decomp h, hnone]
  simp only [Option.toList_some, Option.toList_none, List.append_nil, List.nil_append,
    List.append_assoc, List.singleton_append]
  exact List.perm_middle

theorem distinctKeys_insert {keq : K → K → Bool}
    (hsymm : ∀ a b, keq a b = true → keq b a = true) {l : List (Slot K V)} {i : Nat}
    (h : i < l.length) (hnone : slotAt l i = none) (hdis : DistinctKeys keq l)
    {k : K} (habs : ∀ p ∈ occPairs l, keq k p.1 = false) (v : V) :
    DistinctKeys keq (l.set i (some (k, v))) := by
  unfold DistinctKeys at hdis ⊢
  have hX : occPairs l = occPairs (l.take i) ++ occPairs (l.drop (i + 1)) := by
    rw [occPairs_decomp h, hnone]
    simp
  rw [hX] at hdis habs
  rw [occPairs_set_decomp h]
  simp only [Option.toList_some, List.append_assoc, List.singleton_append]
  apply pairwise_insert_middle hdis
  · intro x hx
    cases hxa : keq x.1 k with
    | false => rfl
    | true =>
      have := habs x (List.mem_append_left _ hx)
      rw [hsymm _ _ hxa] at this
      exact absurd this (by simp)
  · intro y hy
    exact habs y (List.mem_append_right _ hy)

theorem reachAtB_fill {hash : K → Nat} {l : List (Slot K V)} {i j : Nat}
    (hj : j < l.length) (p : K × V) (hi : reachAtB hash l i = true) (hne : i ≠ j) :
    reachAtB hash (l.set j (some p)) i = true := by
  apply reachAtB_intro
  intro k v hs d hd
  rw [slotAt_set_ne (Ne.symm hne)] at hs
  simp only [List.length_set] at hd ⊢
  by_cases hdj : (homeIdx hash l.length k + d) % l.length = j
  · rw [hdj, slotAt_set_self hj]
    rfl
  · rw [slotAt_set_ne (Ne.symm hdj)]
    exact reachAtB_elim hi hs d hd

theorem reachAtB_new {hash : K → Nat} {keq : K → K → Bool} (l : List (Slot K V))
    {k : K} (v : V) {e : Nat} (hn : l.length = 2 ^ e) {m : Nat} (hm : m < l.length)
    (hmin : ∀ d, d < m →
      stopB keq l k ((homeIdx hash l.length k + d) % l.length) = false) :
    reachAtB hash
      (l.set ((homeIdx hash l.length k + m) % l.length) (some (k, v)))
      ((homeIdx hash l.length k + m) % l.length) = true := by
  have hpos : 0 < l.length := by rw [hn]; exact Nat.two_pow_pos e
  have hiL : (homeIdx hash l.length k + m) % l.length < l.length := addmod_lt hpos _ _
  apply reachAtB_intro
  intro k' v' hs d hd
  rw [slotAt_set_self hiL] at hs
  obtain ⟨rfl, rfl⟩ : k = k' ∧ v = v' := by
    injection hs with hs'
    exact ⟨congrArg Prod.fst hs', congrArg Prod.snd hs'⟩
  simp only [List.length_set] at hd ⊢
  have hhlt := homeIdx_lt hash hn k
  rw [cdist_of_add hhlt, Nat.mod_eq_of_lt hm] at hd
  have hne : (homeIdx hash l.length k + d) % l.length ≠
      (homeIdx hash l.length k + m) % l.length := by
    intro heq
    have := offset_inj _ (Nat.lt_trans hd hm) hm heq
    omega
  rw [slotAt_set_ne (Ne.symm hne)]
  obtain ⟨k1, v1, hs1, _⟩ := stopB_elim_false (hmin d hd)
  rw [hs1]
  rfl

theorem reach_insert {hash : K → Nat} {keq : K → K → Bool} {l : List (Slot K V)}
    {k : K} (v : V) {e : Nat} (hn : l.length = 2 ^ e) (hreach : Reach hash l)
    {m : Nat} (hm : m < l.length)
    (hmin : ∀ d, d < m →
      stopB keq l k ((homeIdx hash l.length k + d) % l.length) = false) :
    Reach hash (l.set ((homeIdx hash l.length k + m) % l.length) (some (k, v))) := by
  have hpos : 0 < l.length := by rw [hn]; exact Nat.two_pow_pos e
  intro i hi
  rw [List.length_set] at hi
  by_cases heq : i = (homeIdx hash l.length k + m) % l.length
  · subst heq
    exact reachAtB_new l v hn hm hmin
  · exact reachAtB_fill (addmod_lt hpos _ _) _ (hreach i hi) heq

/-- `put` on a key already present: in-place overwrite, previous pair
returned, no growth check (the C code returns before it). -/
theorem putF_update {hash : K → Nat} {keq : K → K → Bool} (hc : HContract hash keq)
    {t : T K V} {k : K} {e : Nat} (hn : t.entries.length = 2 ^ e)
    (hdis : DistinctKeys keq t.entries) (hreach : Reach hash t.entries)
    {i : Nat} (hi : i < t.entries.length) {k0 : K} {v0 : V}
    (hs : slotAt t.entries i = some (k0, v0)) (hk : keq k k0 = true) (gf : Nat) (v : V) :
    putF hash keq gf t k v =
      some ({ entries := t.entries.set i (some (k, v)), size := t.size }, some (k0, v0)) := by
  have hprobe := probe_finds_present hc hn hdis hreach hi hs hk
  rw [putF]
  simp only [hprobe, hs]

/-- `put` on an absent key with the growth trigger not firing: store at the
probe's terminal empty slot, `size+1`, nothing returned.  The landing index
is exposed for the deletion-walk proof. -/
theorem putF_insert_total {hash : K → Nat} {keq : K → K → Bool} (hc : HContract hash keq)
    {t : T K V} {k : K} {e : Nat} (hn : t.entries.length = 2 ^ e)
    (hemp : ∃ j, j < t.entries.length ∧ slotAt t.entries j = none)
    (hdis : DistinctKeys keq t.entries) (hreach : Reach hash t.entries)
    (habs : ∀ p ∈ occPairs t.entries, keq k p.1 = false)
    (htrig : 2 * (t.size + 1) ≤ t.entries.length) (gf : Nat) (v : V) :
    ∃ t', putF hash keq gf t k v = some (t', none) ∧
      t'.entries.length = t.entries.length ∧
      t'.size = t.size + 1 ∧
      occCount t'.entries = occCount t.entries + 1 ∧
      List.Perm (occPairs t'.entries) ((k, v) :: occPairs t.entries) ∧
      DistinctKeys keq t'.entries ∧ Reach hash t'.entries ∧
      ∃ m, m < t.entries.length ∧
        t'.entries = t.entries.set
          ((homeIdx hash t.entries.length k + m) % t.entries.length) (some (k, v)) ∧
        slotAt t.entries
          ((homeIdx hash t.entries.length k + m) % t.entries.length) = none ∧
        ∀ d, d < m →
          stopB keq t.entries k
            ((homeIdx hash t.entries.length k + d) % t.entries.length) = false := by
  have hpos : 0 < t.entries.length := by rw [hn]; exact Nat.two_pow_pos e
  obtain ⟨m, hm, hprobe, hnone, hmin⟩ := probe_finds_absent t hn hemp habs
  have hiL : (homeIdx hash t.entries.length k + m) % t.entries.length < t.entries.length :=
    addmod_lt hpos _ _
  refine ⟨⟨t.entries.set ((homeIdx hash t.entries.length k + m) % t.entries.length)
    (some (k, v)), t.size + 1⟩, ?_, ?_, rfl, ?_, ?_, ?_, ?_, m, hm, rfl, hnone, hmin⟩
  · rw [putF]
    simp only [hprobe, hnone]
    rw [if_neg (by simp only [List.length_set, THASH_FACTOR_CRITICAL]; omega)]
  · simp
  · exact occCount_insert hiL hnone (k, v)
  · exact occPairs_insert_perm hiL hnone (k, v)
  · exact distinctKeys_insert hc.symm hiL hnone hdis habs v
  · exact reach_insert v hn hreach hm hmin

/-- The bulk-reinsertion fold (rehash body, `copy`): from a table satisfying
the invariants with headroom `2*(size + #entries) ≤ capacity`, reinserting a
list of pairwise-distinct entries, all fresh for the destination, succeeds —
every inner `put` lands on an `Empty` slot, so the `assert(0)` is never
reached — keeps the capacity, and accumulates exactly the given pairs. -/
theorem reinsertAll_spec {hash : K → Nat} {keq : K → K → Bool} (hc : HContract hash keq)
    {e : Nat} (gf : Nat) :
    ∀ (src : List (Slot K V)) (dst : T K V),
      dst.entries.length = 2 ^ e →
      dst.size = occCount dst.entries →
      DistinctKeys keq dst.entries →
      Reach hash dst.entries →
      2 * (dst.size + occCount src) ≤ dst.entries.length →
      DistinctKeys keq src →
      (∀ p ∈ occPairs src, ∀ q ∈ occPairs dst.entries, keq p.1 q.1 = false) →
      ∃ dst', reinsertAll hash keq gf src dst = some dst' ∧
        dst'.entries.length = dst.entries.length ∧
        dst'.size = dst.size + occCount src ∧
        dst'.size = occCount dst'.entries ∧
        DistinctKeys keq dst'.entries ∧
        Reach hash dst'.entries ∧
        List.Perm (occPairs dst'.entries) (occPairs dst.entries ++ occPairs src) := by
  intro src
  induction src with
  | nil =>
    intro dst h1 h2 h3 h4 h5 h6 h7
    rw [reinsertAll_nil]
    exact ⟨dst, rfl, rfl, by simp [occCount, occPairs], h2, h3, h4, by simp [occPairs]⟩
  | cons s rest ih =>
    cases s with
    | none =>
      intro dst h1 h2 h3 h4 h5 h6 h7
      rw [reinsertAll_cons_none]
      exact ih dst h1 h2 h3 h4 h5 h6 h7
    | some p =>
      intro dst h1 h2 h3 h4 h5 h6 h7
      obtain ⟨k, v⟩ := p
      have hps : occPairs (some (k, v) :: rest) = (k, v) :: occPairs rest := rfl
      have hocc : occCount (some (k, v) :: rest) = occCount rest + 1 := by
        simp [occCount, hps]
      rw [hocc] at h5
      have hn8 : 0 < dst.entries.length := by rw [h1]; exact Nat.two_pow_pos e
      have hemp : ∃ j, j < dst.entries.length ∧ slotAt dst.entries j = none := by
        apply occCount_lt_iff_exists_none
        omega
      have habs : ∀ q ∈ occPairs dst.entries, keq k q.1 = false := by
        intro q hq
        exact h7 (k, v) (by rw [hps]; exact List.mem_cons_self _ _) q hq
      have htrig : 2 * (dst.size + 1) ≤ dst.entries.length := by omega
      obtain ⟨dst1, hput, hlen1, hsz1, hocc1, hperm1, hdis1, hreach1, _⟩ :=
        putF_insert_total hc h1 hemp h3 h4 habs htrig gf v
      rw [reinsertAll_cons_some]
      simp only [hput]
      have h6r : DistinctKeys keq rest := by
        rw [DistinctKeys, hps] at h6
        exact (List.pairwise_cons.mp h6).2
      have h6head : ∀ q ∈ occPairs rest, keq k q.1 = false := by
        rw [DistinctKeys, hps] at h6
        exact (List.pairwise_cons.mp h6).1
      have hfresh1 : ∀ p' ∈ occPairs rest, ∀ q ∈ occPairs dst1.entries,
          keq p'.1 q.1 = false := by
        intro p' hp' q hq
        rcases List.mem_cons.mp (hperm1.mem_iff.mp hq) with rfl | hqdst
        · cases hx : keq p'.1 k with
          | false => rfl
          | true =>
            have := h6head p' hp'
            rw [hc.symm _ _ hx] at this
            exact absurd this (by simp)
        · exact h7 p' (by rw [hps]; exact List.mem_cons_of_mem _ hp') q hqdst
      obtain ⟨dst', hrec, hlen', hsz', hszocc', hdis', hreach', hperm'⟩ :=
        ih dst1 (by rw [hlen1, h1]) (by omega) hdis1 hreach1 (by omega) h6r hfresh1
      refine ⟨dst', hrec, by omega, by omega, hszocc', hdis', hreach', ?_⟩
      have hstep : List.Perm (occPairs dst1.entries ++ occPairs rest)
          (((k, v) :: occPairs dst.entries) ++ occPairs rest) :=
        hperm1.append_right _
      have hmid : List.Perm ((k, v) :: (occPairs dst.entries ++ occPairs rest))
          (occPairs dst.entries ++ (k, v) :: occPairs rest) := List.perm_middle.symm
      rw [hps]
      exact (hperm'.trans hstep).trans hmid

/-! ## `create_capacity` and the update/insert branches of the top-level `put` -/

theorem create_capacity_len (c : Nat) :
    (create_capacity c : T K V).entries.length = specGrowthTarget c := by
  simp [create_capacity, create_capacity_nentries_eq]

theorem create_capacity_size (c : Nat) : (create_capacity c : T K V).size = 0 := rfl

theorem reach_replicate (hash : K → Nat) (m : Nat) :
    Reach hash (List.replicate m (none : Slot K V)) := by
  intro i _
  apply reachAtB_intro
  intro k v hs
  rw [slotAt_replicate] at hs
  simp at hs

theorem pow_exp_ge3 {n e : Nat} (hn : n = 2 ^ e) (h8 : 8 ≤ n) : 3 ≤ e := by
  subst hn
  exact (Nat.pow_le_pow_iff_right (by omega)).mp (le_trans (by norm_num) h8)

theorem create_capacity_wf (hash : K → Nat) (keq : K → K → Bool) (c : Nat) :
    WF hash keq (create_capacity c : T K V) := by
  obtain ⟨e, he3, hpe⟩ := specGrowthTarget_pow c
  have hlen : (create_capacity c : T K V).entries.length = 2 ^ e := by
    rw [create_capacity_len, hpe]
  refine ⟨⟨e, ?_, hlen⟩, ?_, ?_, ?_, ?_, ?_⟩
  · rw [hlen]
    exact Nat.lt_two_pow e
  · rw [hlen]
    calc (8 : Nat) = 2 ^ 3 := by norm_num
    _ ≤ 2 ^ e := Nat.pow_le_pow_right (by omega) he3
  · simp [create_capacity, occCount, occPairs_replicate]
  · simp [create_capacity_size]
  · simp [create_capacity, DistinctKeys, occPairs_replicate]
  · exact reach_replicate hash _

theorem occCount_overwrite {l : List (Slot K V)} {i : Nat} (hi : i < l.length)
    {q : K × V} (hs : slotAt l i = some q) (p : K × V) :
    occCount (l.set i (some p)) = occCount l := by
  unfold occCount
  rw [occPairs_set_decomp hi, occPairs_decomp hi, hs]
  simp

theorem mem_occPairs_set_self {l : List (Slot K V)} {i : Nat} (hi : i < l.length)
    (p : K × V) : p ∈ occPairs (l.set i (some p)) :=
  mem_occPairs.mpr ⟨i, by simpa using hi, slotAt_set_self hi (some p)⟩

theorem distinctKeys_overwrite {hash : K → Nat} {keq : K → K → Bool}
    (hc : HContract hash keq) {l : List (Slot K V)} {i : Nat} (hi : i < l.length)
    {k0 : K} {v0 : V} (hs : slotAt l i = some (k0, v0)) (hdis : DistinctKeys keq l)
    {k : K} (hk : keq k k0 = true) (v : V) :
    DistinctKeys keq (l.set i (some (k, v))) := by
  unfold DistinctKeys at hdis ⊢
  rw [occPairs_decomp hi, hs] at hdis
  rw [occPairs_set_decomp hi]
  simp only [Option.toList_some, List.append_assoc, List.singleton_append] at hdis ⊢
  have hXY := hdis.sublist ((List.sublist_cons_self _ _).append_left _)
  apply pairwise_insert_middle hXY
  · intro x hx
    cases hxk : keq x.1 k with
    | false => rfl
    | true =>
      have hxk0 : keq x.1 k0 = true := hc.trans _ _ _ hxk hk
      have := (List.pairwise_append.mp hdis).2.2 x hx (k0, v0) (List.mem_cons_self _ _)
      simp_all
  · intro y hy
    cases hky : keq k y.1 with
    | false => rfl
    | true =>
      have hk0y : keq k0 y.1 = true := keq_trans_chain hc hk hky
      have := (List.pairwise_cons.mp (List.pairwise_append.mp hdis).2.1).1 y hy
      simp_all

theorem reachAtB_overwrite {hash : K → Nat} {l : List (Slot K V)} {i : Nat} {e : Nat}
    (hn : l.length = 2 ^ e) (hi : i < l.length) {k0 : K} {v0 : V}
    (hs : slotAt l i = some (k0, v0)) (hr : reachAtB hash l i = true)
    {k : K} (hhome : homeIdx hash l.length k = homeIdx hash l.length k0) (v : V) :
    reachAtB hash (l.set i (some (k, v))) i = true := by
  apply reachAtB_intro
  intro k' v' hs' d hd
  rw [slotAt_set_self hi] at hs'
  obtain ⟨rfl, rfl⟩ : k = k' ∧ v = v' := by
    injection hs' with h'
    exact ⟨congrArg Prod.fst h', congrArg Prod.snd h'⟩
  simp only [List.length_set] at hd ⊢
  rw [hhome] at hd ⊢
  have hhlt : homeIdx hash l.length k0 < l.length := by
    unfold homeIdx
    rw [mask_eq_mod e hn]
    exact Nat.mod_lt _ (by rw [hn]; exact Nat.two_pow_pos e)
  have hne : (homeIdx hash l.length k0 + d) % l.length ≠ i := by
    intro heq
    have hmm : (homeIdx hash l.length k0 +
        cdist l.length (homeIdx hash l.length k0) i) % l.length = i :=
      add_cdist_mod hhlt hi
    rw [← hmm] at heq
    have := offset_inj _ (Nat.lt_trans hd (cdist_lt hhlt hi)) (cdist_lt hhlt hi) heq
    omega
  rw [slotAt_set_ne (Ne.symm hne)]
  exact reachAtB_elim hr hs d hd

theorem reach_overwrite {hash : K → Nat} {keq : K → K → Bool} (hc : HContract hash keq)
    {l : List (Slot K V)} {i : Nat} {e : Nat} (hn : l.length = 2 ^ e) (hi : i < l.length)
    {k0 : K} {v0 : V} (hs : slotAt l i = some (k0, v0)) (hreach : Reach hash l)
    {k : K} (hk : keq k k0 = true) (v : V) :
    Reach hash (l.set i (some (k, v))) := by
  intro j hj
  rw [List.length_set] at hj
  by_cases heq : j = i
  · subst heq
    exact reachAtB_overwrite hn hi hs (hreach j hj) (homeIdx_congr hc hk) v
  · exact reachAtB_fill hi _ (hreach j hj) heq

/-- Top-level `put` on a present key: previous pair returned, in-place
overwrite, size and capacity unchanged, invariants kept, the key now maps to
the new value. -/
theorem put_spec_found {hash : K → Nat} {keq : K → K → Bool} (hc : HContract hash keq)
    {t : T K V} {k k0 : K} {v0 : V} (hwf : WF hash keq t)
    (hl : lookupL keq t.entries k = some (k0, v0)) (v : V) :
    ∃ t', put hash keq t k v = some (t', some (k0, v0)) ∧ WF hash keq t' ∧
      t'.size = t.size ∧ t'.entries.length = t.entries.length ∧
      lookupL keq t'.entries k = some (k, v) := by
  obtain ⟨⟨e, helt, hn⟩, h8, hsz, hload, hdis, hreach⟩ := hwf
  obtain ⟨hmem, hkk⟩ := (lookupL_eq_some_iff hc hdis).mp hl
  obtain ⟨i, hi, hs⟩ := mem_occPairs.mp hmem
  have hdis' := distinctKeys_overwrite hc hi hs hdis hkk v
  refine ⟨⟨t.entries.set i (some (k, v)), t.size⟩, ?_, ?_, rfl, by simp, ?_⟩
  · unfold put
    exact putF_update hc hn hdis hreach hi hs hkk 1 v
  · refine ⟨⟨e, by simpa using helt, by simpa using hn⟩, by simpa using h8, ?_, ?_, hdis', ?_⟩
    · show t.size = occCount (t.entries.set i (some (k, v)))
      rw [occCount_overwrite hi hs]
      exact hsz
    · simpa using hload
    · exact reach_overwrite hc hn hi hs hreach hkk v
  · exact (lookupL_eq_some_iff hc hdis').mpr ⟨mem_occPairs_set_self hi (k, v), hc.refl k⟩

/-- Top-level `put` on an absent key: insertion, size + 1, invariants kept;
the capacity is unchanged unless the growth trigger `capacity < 2*size`
fires, in which case the table is rebuilt at the spec's growth-target
capacity for occupancy `size + 1` (the length right after the insert). -/
theorem put_spec_absent {hash : K → Nat} {keq : K → K → Bool} (hc : HContract hash keq)
    {t : T K V} {k : K} (hwf : WF hash keq t)
    (hl : lookupL keq t.entries k = none) (v : V) :
    ∃ t', put hash keq t k v = some (t', none) ∧ WF hash keq t' ∧
      t'.size = t.size + 1 ∧
      List.Perm (occPairs t'.entries) ((k, v) :: occPairs t.entries) ∧
      ((2 * (t.size + 1) ≤ t.entries.length ∧ t'.entries.length = t.entries.length) ∨
       (t.entries.length < 2 * (t.size + 1) ∧
        t'.entries.length = specGrowthTarget (t.size + 1))) := by
  obtain ⟨⟨e, helt, hn⟩, h8, hsz, hload, hdis, hreach⟩ := hwf
  have habs := lookupL_eq_none_iff.mp hl
  have hemp := wf_exists_none (⟨⟨e, helt, hn⟩, h8, hsz, hload, hdis, hreach⟩ :
    WF hash keq t)
  rcases Nat.lt_or_ge t.entries.length (2 * (t.size + 1)) with htrig | htrig
  · -- the growth trigger fires: insert, then rehash
    obtain ⟨m, hm, hprobe, hnone, hmin⟩ := probe_finds_absent t hn hemp habs
    have hpos : 0 < t.entries.length := by rw [hn]; exact Nat.two_pow_pos e
    have hiL : (homeIdx hash t.entries.length k + m) % t.entries.length <
        t.entries.length := addmod_lt hpos _ _
    have hlen1 : (t.entries.set
        ((homeIdx hash t.entries.length k + m) % t.entries.length)
        (some (k, v))).length = t.entries.length := by simp
    have hocc1 := occCount_insert hiL hnone (k, v)
    have hperm1 := occPairs_insert_perm hiL hnone (k, v)
    have hdis1 := distinctKeys_insert hc.symm hiL hnone hdis habs v
    have hreach1 := reach_insert v hn hreach hm hmin
    obtain ⟨E, hE3, hEpow⟩ := specGrowthTarget_pow (t.size + 1 + 1)
    have hdstlen : (create_capacity (t.size + 1 + 1) : T K V).entries.length =
        specGrowthTarget (t.size + 1 + 1) := create_capacity_len _
    have hdst8 : max 8 (4 * (t.size + 1 + 1)) ≤ specGrowthTarget (t.size + 1 + 1) :=
      specGrowthTarget_spec _
    obtain ⟨dst', hrein, hrlen, hrsize, hrszocc, hrdis, hrreach, hrperm⟩ :=
      reinsertAll_spec hc 0 _ (create_capacity (t.size + 1 + 1))
        (by rw [hdstlen, hEpow])
        (by simp [create_capacity, occCount, occPairs_replicate, create_capacity_size])
        (by simp [create_capacity, DistinctKeys, occPairs_replicate])
        (reach_replicate hash _)
        (by rw [create_capacity_size, hdstlen]
            have h1 : occCount (t.entries.set
                ((homeIdx hash t.entries.length k + m) % t.entries.length)
                (some (k, v))) = t.size + 1 := by omega
            rw [h1]
            omega)
        hdis1
        (by intro p hp q hq
            simp only [create_capacity] at hq
            rw [occPairs_replicate] at hq
            simp at hq)
    have hred : put hash keq t k v = some (dst', none) := by
      unfold put
      rw [putF_eq]
      simp only [hprobe, hnone]
      rw [if_pos (by simp only [List.length_set, THASH_FACTOR_CRITICAL]; omega)]
      simp only [hrein]
    have hsize' : dst'.size = t.size + 1 := by
      rw [hrsize, create_capacity_size]
      omega
    have hperm' : List.Perm (occPairs dst'.entries) ((k, v) :: occPairs t.entries) := by
      have hznil : occPairs (create_capacity (t.size + 1 + 1) : T K V).entries = [] := by
        simp [create_capacity, occPairs_replicate]
      rw [hznil] at hrperm
      simp only [List.nil_append] at hrperm
      exact hrperm.trans hperm1
    have he3 : 3 ≤ e := pow_exp_ge3 hn h8
    have htarget : specGrowthTarget (t.size + 1 + 1) = specGrowthTarget (t.size + 1) :=
      specGrowthTarget_trigger_eq hn he3 hload htrig
    refine ⟨dst', hred, ?_, hsize', hperm', Or.inr ⟨htrig, by rw [hrlen, hdstlen, htarget]⟩⟩
    refine ⟨⟨E, ?_, ?_⟩, ?_, hrszocc, ?_, hrdis, hrreach⟩
    · rw [hrlen, hdstlen, hEpow]
      exact Nat.lt_two_pow E
    · rw [hrlen, hdstlen, hEpow]
    · rw [hrlen, hdstlen, hEpow]
      calc (8 : Nat) = 2 ^ 3 := by norm_num
      _ ≤ 2 ^ E := Nat.pow_le_pow_right (by omega) hE3
    · rw [hrlen, hdstlen, hsize']
      omega
  · -- no trigger: plain insert
    obtain ⟨t', hput, hlen, hsize, hocc, hperm, hdis', hreach', _⟩ :=
      putF_insert_total hc hn hemp hdis hreach habs htrig 1 v
    refine ⟨t', by unfold put; exact hput, ?_, hsize, hperm, Or.inl ⟨htrig, hlen⟩⟩
    refine ⟨⟨e, by rw [hlen]; exact helt, by rw [hlen]; exact hn⟩,
      by rw [hlen]; exact h8, by omega, by omega, hdis', hreach'⟩

/-! ## Helpers for the backward-shift deletion walk -/

/-- Insert on an absent key, no trigger: reduction and bookkeeping without
any reachability hypothesis (usable on the mid-walk tables of `remove`,
whose probe paths are temporarily broken). -/
theorem putF_insert_basic {hash : K → Nat} {keq : K → K → Bool}
    (hsymm : ∀ a b, keq a b = true → keq b a = true)
    (l : List (Slot K V)) (s : Nat) {k : K} {e : Nat} (hn : l.length = 2 ^ e)
    (hemp : ∃ q, q < l.length ∧ slotAt l q = none)
    (hdis : DistinctKeys keq l)
    (habs : ∀ p ∈ occPairs l, keq k p.1 = false)
    (htrig : 2 * (s + 1) ≤ l.length) (gf : Nat) (v : V) :
    ∃ m, m < l.length ∧
      putF hash keq gf ⟨l, s⟩ k v = some
        (⟨l.set ((homeIdx hash l.length k + m) % l.length) (some (k, v)), s + 1⟩, none) ∧
      slotAt l ((homeIdx hash l.length k + m) % l.length) = none ∧
      (∀ d, d < m →
        stopB keq l k ((homeIdx hash l.length k + d) % l.length) = false) ∧
      DistinctKeys keq
        (l.set ((homeIdx hash l.length k + m) % l.length) (some (k, v))) ∧
      List.Perm
        (occPairs (l.set ((homeIdx hash l.length k + m) % l.length) (some (k, v))))
        ((k, v) :: occPairs l) := by
  have hpos : 0 < l.length := by rw [hn]; exact Nat.two_pow_pos e
  obtain ⟨m, hm, hprobe, hnone, hmin⟩ :=
    probe_finds_absent ⟨l, s⟩ hn hemp habs
  have hiL : (homeIdx hash l.length k + m) % l.length < l.length :=
    addmod_lt hpos _ _
  refine ⟨m, hm, ?_, hnone, hmin, distinctKeys_insert hsymm hiL hnone hdis habs v,
    occPairs_insert_perm hiL hnone (k, v)⟩
  rw [putF]
  simp only [hprobe, hnone]
  rw [if_neg (by simp only [List.length_set, THASH_FACTOR_CRITICAL]; omega)]

theorem distinctKeys_clear {keq : K → K → Bool} {l : List (Slot K V)} {i : Nat}
    (hi : i < l.length) (hdis : DistinctKeys keq l) :
    DistinctKeys keq (l.set i none) := by
  unfold DistinctKeys at hdis ⊢
  rw [occPairs_set_decomp hi]
  rw [occPairs_decomp hi] at hdis
  simp only [Option.toList_none, List.append_nil, List.nil_append] at hdis ⊢
  cases hs : slotAt l i with
  | none =>
    rw [hs] at hdis
    simpa using hdis
  | some q =>
    rw [hs] at hdis
    simp only [Option.toList_some, List.append_assoc, List.singleton_append] at hdis
    exact hdis.sublist ((List.sublist_cons_self _ _).append_left _)

theorem occPairs_clear_perm {l : List (Slot K V)} {i : Nat} (hi : i < l.length)
    {q : K × V} (hs : slotAt l i = some q) :
    List.Perm (occPairs l) (q :: occPairs (l.set i none)) := by
  rw [occPairs_set_decomp hi, occPairs_decomp hi, hs]
  simp only [Option.toList_some, Option.toList_none, List.append_nil, List.nil_append,
    List.append_assoc, List.singleton_append]
  exact List.perm_middle

theorem occCount_clear {l : List (Slot K V)} {i : Nat} (hi : i < l.length)
    {q : K × V} (hs : slotAt l i = some q) :
    occCount l = occCount (l.set i none) + 1 := by
  unfold occCount
  rw [occPairs_set_decomp hi, occPairs_decomp hi, hs]
  simp
  omega

/-- The removed entry's key is `TKEYEQUAL` to no remaining key. -/
theorem habs_of_clear {keq : K → K → Bool}
    (hsymm : ∀ a b, keq a b = true → keq b a = true) {l : List (Slot K V)} {i : Nat}
    (hi : i < l.length) {q : K × V} (hs : slotAt l i = some q)
    (hdis : DistinctKeys keq l) :
    ∀ p ∈ occPairs (l.set i none), keq q.1 p.1 = false := by
  intro p hp
  rw [occPairs_set_decomp hi] at hp
  rw [DistinctKeys, occPairs_decomp hi, hs] at hdis
  simp only [Option.toList_some, Option.toList_none, List.append_nil,
    List.append_assoc, List.singleton_append] at hp hdis
  rcases List.mem_append.mp hp with hpX | hpY
  · have := (List.pairwise_append.mp hdis).2.2 p hpX q (List.mem_cons_self _ _)
    cases hqp : keq q.1 p.1 with
    | false => rfl
    | true =>
      rw [hsymm _ _ hqp] at this
      exact absurd this (by simp)
  · exact (List.pairwise_cons.mp (List.pairwise_append.mp hdis).2.1).1 p hpY

/-- Clearing a slot that is on no probe path of entry `i` keeps `i` reachable. -/
theorem reachAtB_set_none {hash : K → Nat} {l : List (Slot K V)} {i q : Nat}
    (hr : reachAtB hash l i = true) (hiq : i ≠ q)
    (havoid : ∀ p : K × V, slotAt l i = some p →
      ∀ d, d < cdist l.length (homeIdx hash l.length p.1) i →
        (homeIdx hash l.length p.1 + d) % l.length ≠ q) :
    reachAtB hash (l.set q none) i = true := by
  apply reachAtB_intro
  intro k v hs d hd
  rw [slotAt_set_ne (Ne.symm hiq)] at hs
  simp only [List.length_set] at hd ⊢
  rw [slotAt_set_ne (Ne.symm (havoid (k, v) hs d hd))]
  exact reachAtB_elim hr hs d hd

theorem offset_add_cdist {n : Nat} (h : Nat) {x y : Nat} (hx : x < n) (hy : y < n) :
    ((h + x) % n + cdist n x y) % n = (h + y) % n := by
  rw [Nat.mod_add_mod, Nat.add_assoc]
  conv_rhs => rw [← add_cdist_mod hx hy]
  rw [Nat.add_mod_mod]

/-- Home-position fact for a run entry: the home of the entry stored at
offset `j` from the cleared slot `h` lies outside the cyclic range `(j, c]`,
so every offset in `(j, c]` is strictly farther from that home than `j` is.
(The interval `(j, c]` ends at the first originally-empty offset `c`; the
original reachability of the entry would otherwise cross the empty slot.) -/
theorem run_home_geometry {hash : K → Nat} {n e : Nat} {L : List (Slot K V)}
    (hLlen : L.length = n) (hn : n = 2 ^ e) (hLreach : Reach hash L)
    {h : Nat} (hh : h < n) {c : Nat} (hcn : c < n)
    (hcE : slotAt L ((h + c) % n) = none)
    {j : Nat} (hjc : j < c)
    {kj : K} {vj : V} (hpj : slotAt L ((h + j) % n) = some (kj, vj)) :
    ∀ x, j < x → x ≤ c →
      cdist n (homeIdx hash n kj) ((h + j) % n) <
        cdist n (homeIdx hash n kj) ((h + x) % n) := by
  subst hLlen
  have hpos : 0 < L.length := by rw [hn]; exact Nat.two_pow_pos e
  have hhome : homeIdx hash L.length kj < L.length := homeIdx_lt hash hn kj
  have hjn : j < L.length := lt_trans hjc hcn
  have hpjlt : (h + j) % L.length < L.length := addmod_lt hpos _ _
  have hreachj := reachAtB_elim (hLreach _ hpjlt) hpj
  have haj : homeIdx hash L.length kj =
      (h + cdist L.length h (homeIdx hash L.length kj)) % L.length :=
    (add_cdist_mod hh hhome).symm
  have hajlt : cdist L.length h (homeIdx hash L.length kj) < L.length := cdist_lt hh hhome
  have hD0 : cdist L.length (homeIdx hash L.length kj) ((h + j) % L.length) =
      cdist L.length (cdist L.length h (homeIdx hash L.length kj)) j := by
    conv_lhs => rw [haj]
    exact cdist_shift hpos h hajlt hjn
  have hDx : ∀ x, x < L.length →
      cdist L.length (homeIdx hash L.length kj) ((h + x) % L.length) =
        cdist L.length (cdist L.length h (homeIdx hash L.length kj)) x := by
    intro x hx
    conv_lhs => rw [haj]
    exact cdist_shift hpos h hajlt hx
  have hnotin : ¬ (j < cdist L.length h (homeIdx hash L.length kj) ∧
      cdist L.length h (homeIdx hash L.length kj) ≤ c) := by
    rintro ⟨haj1, haj2⟩
    rcases Nat.eq_or_lt_of_le haj2 with heq | hlt2
    · have hmeq : homeIdx hash L.length kj = (h + c) % L.length := by
        rw [haj, heq]
      have hD0pos : 0 < cdist L.length (homeIdx hash L.length kj)
          ((h + j) % L.length) := by
        rcases Nat.eq_zero_or_pos (cdist L.length (homeIdx hash L.length kj)
          ((h + j) % L.length)) with hz | hp2
        · exfalso
          rw [hD0, cdist_eq hajlt hjn] at hz
          revert hz
          split <;> omega
        · exact hp2
      have hocc := hreachj 0 hD0pos
      rw [Nat.add_zero, Nat.mod_eq_of_lt hhome, hmeq, hcE] at hocc
      simp at hocc
    · have hdcD0 : cdist L.length (homeIdx hash L.length kj) ((h + c) % L.length) <
          cdist L.length (homeIdx hash L.length kj) ((h + j) % L.length) := by
        rw [hD0, hDx c hcn, cdist_eq hajlt hcn, cdist_eq hajlt hjn]
        split_ifs <;> omega
      have hocc := hreachj _ hdcD0
      have hpt : (homeIdx hash L.length kj +
          cdist L.length (homeIdx hash L.length kj) ((h + c) % L.length)) % L.length =
          (h + c) % L.length := add_cdist_mod hhome (addmod_lt hpos _ _)
      rw [hpt, hcE] at hocc
      simp at hocc
  intro x hx1 hx2
  have hxn : x < L.length := lt_of_le_of_lt hx2 hcn
  rw [hD0, hDx x hxn]
  rcases Nat.lt_or_ge j (cdist L.length h (homeIdx hash L.length kj)) with hja | hja
  · have hajc : c < cdist L.length h (homeIdx hash L.length kj) := by omega
    rw [cdist_eq hajlt hjn, cdist_eq hajlt hxn]
    split_ifs <;> omega
  · rw [cdist_eq hajlt hjn, cdist_eq hajlt hxn]
    split_ifs <;> omega

/-- Entries stored strictly beyond the first empty offset `c` (relative to
the cleared slot `h`) have probe paths that stay strictly beyond `c`: their
home also lies beyond `c` and the path never wraps across the empty slot. -/
theorem initial_outside_path {hash : K → Nat} {n e : Nat} {L : List (Slot K V)}
    (hLlen : L.length = n) (hn : n = 2 ^ e) (hLreach : Reach hash L)
    {h : Nat} (hh : h < n) {c : Nat} (hcn : c < n)
    (hcE : slotAt L ((h + c) % n) = none)
    {i : Nat} (hi : i < n) {kp : K} {vp : V} (hs : slotAt L i = some (kp, vp))
    (hoff : c < cdist n h i) :
    ∀ d, d ≤ cdist n (homeIdx hash n kp) i →
      c < cdist n h ((homeIdx hash n kp + d) % n) := by
  subst hLlen
  have hpos : 0 < L.length := by rw [hn]; exact Nat.two_pow_pos e
  have hhome : homeIdx hash L.length kp < L.length := homeIdx_lt hash hn kp
  have hreachi := reachAtB_elim (hLreach i hi) hs
  have hxi_lt : cdist L.length h i < L.length := cdist_lt hh hi
  have hai_lt : cdist L.length h (homeIdx hash L.length kp) < L.length :=
    cdist_lt hh hhome
  have hi_eq : i = (h + cdist L.length h i) % L.length := (add_cdist_mod hh hi).symm
  have hm_eq : homeIdx hash L.length kp =
      (h + cdist L.length h (homeIdx hash L.length kp)) % L.length :=
    (add_cdist_mod hh hhome).symm
  have hDi : cdist L.length (homeIdx hash L.length kp) i =
      cdist L.length (cdist L.length h (homeIdx hash L.length kp))
        (cdist L.length h i) := by
    conv_lhs => rw [hm_eq, hi_eq]
    exact cdist_shift hpos h hai_lt hxi_lt
  have hptc : (homeIdx hash L.length kp +
      cdist L.length (cdist L.length h (homeIdx hash L.length kp)) c) % L.length =
      (h + c) % L.length := by
    nth_rewrite 1 [hm_eq]
    exact offset_add_cdist h hai_lt hcn
  have hkey : c < cdist L.length h (homeIdx hash L.length kp) ∧
      cdist L.length h (homeIdx hash L.length kp) ≤ cdist L.length h i := by
    by_contra hcon
    have hlt : cdist L.length (cdist L.length h (homeIdx hash L.length kp)) c <
        cdist L.length (cdist L.length h (homeIdx hash L.length kp))
          (cdist L.length h i) := by
      rw [cdist_eq hai_lt hcn, cdist_eq hai_lt hxi_lt]
      split_ifs <;> omega
    have hocc := hreachi _ (by rw [hDi]; exact hlt)
    rw [hptc, hcE] at hocc
    simp at hocc
  intro d hd
  rw [hDi] at hd
  have hDi2 : cdist L.length (cdist L.length h (homeIdx hash L.length kp))
      (cdist L.length h i) = cdist L.length h i -
        cdist L.length h (homeIdx hash L.length kp) := by
    rw [cdist_eq hai_lt hxi_lt, if_pos hkey.2]
  have hptoff : cdist L.length h ((homeIdx hash L.length kp + d) % L.length) =
      cdist L.length h (homeIdx hash L.length kp) + d := by
    conv_lhs => rw [hm_eq]
    rw [add_offset_mod, cdist_of_add hh]
    exact Nat.mod_eq_of_lt (by omega)
  rw [hptoff]
  omega

theorem occCount_pos {l : List (Slot K V)} {i : Nat} (hi : i < l.length) {p : K × V}
    (hs : slotAt l i = some p) : 1 ≤ occCount l := by
  have hmem : p ∈ occPairs l := mem_occPairs.mpr ⟨i, hi, hs⟩
  exact List.length_pos.mpr (List.ne_nil_of_mem hmem)

theorem removeWalk_succ (hash : K → Nat) (keq : K → K → Bool) (f : Nat) (t : T K V)
    (idx : Nat) :
    removeWalk hash keq (f + 1) t idx =
      match slotAt t.entries idx with
      | none => some t
      | some (k, v) =>
        match putF hash keq 1 ⟨t.entries.set idx none, t.size - 1⟩ k v with
        | none => none
        | some (_, some _) => none
        | some (t2, none) =>
          removeWalk hash keq f t2 ((idx + 1) &&& (t2.entries.length - 1)) := rfl

/-- The backward-shift walk, verified.  `L` is the slot array at the moment
the removed entry's slot was cleared, `h` that slot's index, `c` the first
offset (from `h`, forward, wrapping) whose slot was empty in `L`.  Starting
at offset `j` with the run `[j, c)` still as in `L`, its end empty, and every
entry outside the run reachable with a probe path clear of the offsets
`[j, c]`, the walk re-puts the run entries one by one — each landing on an
empty slot, never matching — stops at offset `c`, conserves the pair
multiset and the `size` field, and restores full probe-reachability. -/
theorem removeWalk_go {hash : K → Nat} {keq : K → K → Bool} (hc : HContract hash keq)
    {n e : Nat} (hn : n = 2 ^ e) {L : List (Slot K V)} (hLlen : L.length = n)
    (hLreach : Reach hash L) {h : Nat} (hh : h < n) {c : Nat} (hcn : c < n)
    (hcE : slotAt L ((h + c) % n) = none)
    (hcRun : ∀ x, 1 ≤ x → x < c → (slotAt L ((h + x) % n)).isSome = true)
    (δ : Nat) :
    ∀ (b j fuel : Nat) (t : T K V), j + b = c → 1 ≤ j → c - j < fuel →
      t.entries.length = n →
      2 * t.size ≤ n →
      t.size = occCount t.entries + δ →
      DistinctKeys keq t.entries →
      (∀ x, j ≤ x → x < c → slotAt t.entries ((h + x) % n) = slotAt L ((h + x) % n)) →
      slotAt t.entries ((h + c) % n) = none →
      (∀ i, i < n → ∀ p : K × V, slotAt t.entries i = some p →
        (∀ x, j ≤ x → x < c → i ≠ (h + x) % n) →
        reachAtB hash t.entries i = true ∧
        (∀ d, d ≤ cdist n (homeIdx hash n p.1) i → ∀ x, j ≤ x → x ≤ c →
          (homeIdx hash n p.1 + d) % n ≠ (h + x) % n)) →
      ∃ t', removeWalk hash keq fuel t ((h + j) % n) = some t' ∧
        t'.entries.length = n ∧ t'.size = t.size ∧
        List.Perm (occPairs t'.entries) (occPairs t.entries) ∧
        DistinctKeys keq t'.entries ∧
        Reach hash t'.entries := by
  have hpos : 0 < n := by rw [hn]; exact Nat.two_pow_pos e
  intro b
  induction b with
  | zero =>
    intro j fuel t hjb hj1 hfuel hlen hload hszocc hdis hrun hstop houtside
    have hjc : j = c := by omega
    subst hjc
    obtain ⟨f', rfl⟩ : ∃ f', fuel = f' + 1 := ⟨fuel - 1, by omega⟩
    rw [removeWalk_succ]
    simp only [hstop]
    refine ⟨t, rfl, hlen, rfl, List.Perm.refl _, hdis, ?_⟩
    intro i hi
    rw [hlen] at hi
    cases hsi : slotAt t.entries i with
    | none =>
      apply reachAtB_intro
      intro k v hk
      rw [hsi] at hk
      simp at hk
    | some p =>
      exact (houtside i hi p hsi (fun x hx1 hx2 _ => by omega)).1
  | succ b ih =>
    intro j fuel t hjb hj1 hfuel hlen hload hszocc hdis hrun hstop houtside
    have hjc : j < c := by omega
    have hjn : j < n := lt_trans hjc hcn
    have hcn0 : c ≠ j := by omega
    have hpjlt : (h + j) % n < n := addmod_lt hpos _ _
    -- the entry at the walk position is the original one
    have hLj := hcRun j hj1 hjc
    obtain ⟨pj, hpjL⟩ := Option.isSome_iff_exists.mp hLj
    obtain ⟨kj, vj⟩ := pj
    have hpjt : slotAt t.entries ((h + j) % n) = some (kj, vj) := by
      rw [hrun j (Nat.le_refl j) hjc]
      exact hpjL
    obtain ⟨f', rfl⟩ : ∃ f', fuel = f' + 1 := ⟨fuel - 1, by omega⟩
    rw [removeWalk_succ]
    -- the cleared table t1
    have hlen1 : (t.entries.set ((h + j) % n) none).length = n := by
      simp [hlen]
    have hocc_pos : 1 ≤ occCount t.entries :=
      occCount_pos (by rw [hlen]; exact hpjlt) hpjt
    have hsz1 : 1 ≤ t.size := by omega
    have hocc_clear : occCount t.entries =
        occCount (t.entries.set ((h + j) % n) none) + 1 :=
      occCount_clear (by rw [hlen]; exact hpjlt) hpjt
    have hperm_clear := occPairs_clear_perm (by rw [hlen]; exact hpjlt) hpjt
    have hdis1 : DistinctKeys keq (t.entries.set ((h + j) % n) none) :=
      distinctKeys_clear (by rw [hlen]; exact hpjlt) hdis
    have habs1 := habs_of_clear hc.symm (by rw [hlen]; exact hpjlt) hpjt hdis
    -- distinct offsets h+x are distinct indices
    have hoffne : ∀ x y : Nat, x < n → y < n → x ≠ y → (h + x) % n ≠ (h + y) % n := by
      intro x y hx hy hxy heq
      exact hxy (offset_inj h hx hy heq)
    -- the stopper offset is still empty after the clear
    have hstop1 : slotAt (t.entries.set ((h + j) % n) none) ((h + c) % n) = none := by
      rw [slotAt_set_ne (hoffne j c hjn hcn (by omega))]
      exact hstop
    have hemp1 : ∃ q, q < (t.entries.set ((h + j) % n) none).length ∧
        slotAt (t.entries.set ((h + j) % n) none) q = none :=
      ⟨(h + c) % n, by rw [hlen1]; exact addmod_lt hpos _ _, hstop1⟩
    have htrig1 : 2 * (t.size - 1 + 1) ≤ (t.entries.set ((h + j) % n) none).length := by
      rw [hlen1]
      omega
    obtain ⟨m, hm, hput, hnone, hmin, hdis2, hperm2⟩ :=
      putF_insert_basic hc.symm (t.entries.set ((h + j) % n) none) (t.size - 1)
        (by rw [hlen1]; exact hn) hemp1 hdis1 habs1 htrig1 1 vj
    rw [hlen1] at hm hput hnone hmin hdis2 hperm2
    simp only [hpjt]
    rw [hput]
    -- geometry of the landing
    have hhome : homeIdx hash n kj < n := homeIdx_lt hash hn kj
    have hD0 : (homeIdx hash n kj + cdist n (homeIdx hash n kj) ((h + j) % n)) % n =
        (h + j) % n := add_cdist_mod hhome hpjlt
    have hg := run_home_geometry hLlen hn hLreach hh hcn hcE hjc hpjL
    have hmD0 : m ≤ cdist n (homeIdx hash n kj) ((h + j) % n) := by
      by_contra hcon
      have hfalse := hmin (cdist n (homeIdx hash n kj) ((h + j) % n)) (by omega)
      rw [hD0] at hfalse
      have : stopB keq (t.entries.set ((h + j) % n) none) kj ((h + j) % n) = true :=
        stopB_of_none (by rw [slotAt_set_self (by rw [hlen]; exact hpjlt)])
      rw [this] at hfalse
      exact absurd hfalse (by simp)
    have hiLlt : (homeIdx hash n kj + m) % n < n := addmod_lt hpos _ _
    have hcdist_iL : cdist n (homeIdx hash n kj) ((homeIdx hash n kj + m) % n) = m := by
      rw [cdist_of_add hhome, Nat.mod_eq_of_lt hm]
    have hiLne : ∀ x, j < x → x ≤ c → (homeIdx hash n kj + m) % n ≠ (h + x) % n := by
      intro x hx1 hx2 heq
      have h1 := hg x hx1 hx2
      rw [← heq, hcdist_iL] at h1
      omega
    have hnewpath : ∀ d, d ≤ m → ∀ x, j < x → x ≤ c →
        (homeIdx hash n kj + d) % n ≠ (h + x) % n := by
      intro d hd x hx1 hx2 heq
      have h1 := hg x hx1 hx2
      have h2 : cdist n (homeIdx hash n kj) ((homeIdx hash n kj + d) % n) = d := by
        rw [cdist_of_add hhome, Nat.mod_eq_of_lt (by omega)]
      rw [← heq, h2] at h1
      omega
    -- the stepped table
    have ht2len : ((t.entries.set ((h + j) % n) none).set
        ((homeIdx hash n kj + m) % n) (some (kj, vj))).length = n := by
      simp [hlen]
    -- address of the next step
    have haddr : (((h + j) % n + 1) &&& (((t.entries.set ((h + j) % n) none).set
        ((homeIdx hash n kj + m) % n) (some (kj, vj))).length - 1)) = (h + (j + 1)) % n := by
      rw [ht2len, mask_eq_mod e hn, add_offset_mod]
    -- invariant pieces at j+1
    have hocc2 : occCount ((t.entries.set ((h + j) % n) none).set
        ((homeIdx hash n kj + m) % n) (some (kj, vj))) =
        occCount (t.entries.set ((h + j) % n) none) + 1 :=
      occCount_insert (by rw [hlen1]; exact hiLlt) hnone (kj, vj)
    have hrun2 : ∀ x, j + 1 ≤ x → x < c →
        slotAt ((t.entries.set ((h + j) % n) none).set
          ((homeIdx hash n kj + m) % n) (some (kj, vj))) ((h + x) % n) =
        slotAt L ((h + x) % n) := by
      intro x hx1 hx2
      rw [slotAt_set_ne (hiLne x (by omega) (by omega)),
        slotAt_set_ne (hoffne j x hjn (lt_trans hx2 hcn) (by omega))]
      exact hrun x (by omega) hx2
    have hstop2 : slotAt ((t.entries.set ((h + j) % n) none).set
        ((homeIdx hash n kj + m) % n) (some (kj, vj))) ((h + c) % n) = none := by
      rw [slotAt_set_ne (hiLne c (by omega) (by omega))]
      exact hstop1
    have houtside2 : ∀ i, i < n → ∀ p : K × V,
        slotAt ((t.entries.set ((h + j) % n) none).set
          ((homeIdx hash n kj + m) % n) (some (kj, vj))) i = some p →
        (∀ x, j + 1 ≤ x → x < c → i ≠ (h + x) % n) →
        reachAtB hash ((t.entries.set ((h + j) % n) none).set
          ((homeIdx hash n kj + m) % n) (some (kj, vj))) i = true ∧
        (∀ d, d ≤ cdist n (homeIdx hash n p.1) i → ∀ x, j + 1 ≤ x → x ≤ c →
          (homeIdx hash n p.1 + d) % n ≠ (h + x) % n) := by
      intro i hi p hsi hnotrun
      by_cases hiL : i = (homeIdx hash n kj + m) % n
      · subst hiL
        rw [slotAt_set_self (by rw [hlen1]; exact hiLlt)] at hsi
        obtain rfl : (kj, vj) = p := Option.some.inj hsi
        constructor
        · have hnew := reachAtB_new (t.entries.set ((h + j) % n) none) vj
            (by rw [hlen1]; exact hn) (show m < _ by rw [hlen1]; exact hm)
            (show ∀ d, d < m → _ from by rw [hlen1]; exact hmin)
          rw [hlen1] at hnew
          exact hnew
        · intro d hd x hx1 hx2
          have hd0 : d ≤ cdist n (homeIdx hash n kj) ((homeIdx hash n kj + m) % n) := hd
          have hd' : d ≤ m := by
            rw [hcdist_iL] at hd0
            exact hd0
          exact hnewpath d hd' x (by omega) hx2
      · have hiLi : (homeIdx hash n kj + m) % n ≠ i := Ne.symm hiL
        have hipj : i ≠ (h + j) % n := by
          intro heq
          by_cases hpjiL : (h + j) % n = (homeIdx hash n kj + m) % n
          · exact hiL (heq.trans hpjiL)
          · rw [heq, slotAt_set_ne (Ne.symm hpjiL),
              slotAt_set_self (by rw [hlen]; exact hpjlt)] at hsi
            exact Option.noConfusion hsi
        have hsit : slotAt t.entries i = some p := by
          rw [slotAt_set_ne hiLi, slotAt_set_ne (Ne.symm hipj)] at hsi
          exact hsi
        obtain ⟨hreach_i, hpath_i⟩ := houtside i hi p hsit (fun x hx1 hx2 => by
          rcases Nat.eq_or_lt_of_le hx1 with heq | hgt
          · rw [← heq]
            exact hipj
          · exact hnotrun x hgt hx2)
        have hpath1 : ∀ d, d ≤ cdist n (homeIdx hash n p.1) i → ∀ x, j ≤ x → x ≤ c →
            (homeIdx hash n p.1 + d) % n ≠ (h + x) % n := hpath_i
        constructor
        · have hr1 : reachAtB hash (t.entries.set ((h + j) % n) none) i = true := by
            apply reachAtB_set_none hreach_i hipj
            intro p' hsp' d hd
            have hpp : p' = p := by
              rw [hsit] at hsp'
              exact (Option.some.inj hsp').symm
            subst hpp
            rw [hlen] at hd ⊢
            exact hpath1 d (by omega) j (Nat.le_refl j) (by omega)
          have hr2 := reachAtB_fill (show (homeIdx hash n kj + m) % n <
              (t.entries.set ((h + j) % n) none).length from by rw [hlen1]; exact hiLlt)
            (kj, vj) hr1 hiLi.symm
          exact hr2
        · intro d hd x hx1 hx2
          exact hpath1 d hd x (by omega) hx2
    -- recurse at offset j + 1
    show ∃ t', removeWalk hash keq f'
        ⟨(t.entries.set ((h + j) % n) none).set ((homeIdx hash n kj + m) % n)
          (some (kj, vj)), t.size - 1 + 1⟩
        (((h + j) % n + 1) &&& (((t.entries.set ((h + j) % n) none).set
          ((homeIdx hash n kj + m) % n) (some (kj, vj))).length - 1)) = some t' ∧
      t'.entries.length = n ∧ t'.size = t.size ∧
      List.Perm (occPairs t'.entries) (occPairs t.entries) ∧
      DistinctKeys keq t'.entries ∧ Reach hash t'.entries
    rw [haddr]
    obtain ⟨t2', hwalk, hlen', hsize', hperm', hdis', hreach'⟩ :=
      ih (j + 1) f'
        ⟨(t.entries.set ((h + j) % n) none).set ((homeIdx hash n kj + m) % n)
          (some (kj, vj)), t.size - 1 + 1⟩
        (by omega) (by omega) (by omega) ht2len
        (show 2 * (t.size - 1 + 1) ≤ n by omega)
        (show t.size - 1 + 1 = _ + δ by
          show t.size - 1 + 1 = occCount ((t.entries.set ((h + j) % n) none).set
            ((homeIdx hash n kj + m) % n) (some (kj, vj))) + δ
          rw [hocc2]
          omega)
        hdis2 hrun2 hstop2 houtside2
    refine ⟨t2', hwalk, hlen', ?_, ?_, hdis', hreach'⟩
    · rw [hsize']
      show t.size - 1 + 1 = t.size
      omega
    · exact hperm'.trans (hperm2.trans hperm_clear.symm)

/-- Interface of the walk for a hole at index `h` of a table satisfying
the invariants except that slot `h` was just cleared: hypotheses phrased on
the original array `L` and the hole. `σ` is the value of the `size` field of
the start table (`size - 1` for `remove`, still `size` for
`iterator_remove`, which decrements only at the end). -/
theorem removeWalk_from_hole {hash : K → Nat} {keq : K → K → Bool} (hc : HContract hash keq)
    {L : List (Slot K V)} {e : Nat} (hn : L.length = 2 ^ e)
    (hdis : DistinctKeys keq L) (hreach : Reach hash L)
    {h : Nat} (hh : h < L.length) {k0 : K} {v0 : V}
    (hs : slotAt L h = some (k0, v0))
    (hemp : occCount L < L.length) (σ δ : Nat)
    (hσ : σ = occCount (L.set h none) + δ) (hload : 2 * σ ≤ L.length) :
    ∃ t', removeWalk hash keq L.length ⟨L.set h none, σ⟩
        ((h + 1) &&& (L.length - 1)) = some t' ∧
      t'.entries.length = L.length ∧ t'.size = σ ∧
      List.Perm (occPairs t'.entries) (occPairs (L.set h none)) ∧
      DistinctKeys keq t'.entries ∧
      Reach hash t'.entries := by
  have hpos : 0 < L.length := by rw [hn]; exact Nat.two_pow_pos e
  -- the first empty offset after the hole
  have hex : ∃ x, 1 ≤ x ∧ (slotAt L ((h + x) % L.length)).isNone = true := by
    obtain ⟨i0, hi0, hsi0⟩ := occCount_lt_iff_exists_none hemp
    have hne : i0 ≠ h := by
      intro heq
      rw [heq, hs] at hsi0
      exact Option.noConfusion hsi0
    refine ⟨cdist L.length h i0, ?_, ?_⟩
    · rcases Nat.eq_zero_or_pos (cdist L.length h i0) with hz | hp
      · exfalso
        rw [cdist_eq hh hi0] at hz
        revert hz
        split <;> omega
      · exact hp
    · rw [add_cdist_mod hh hi0, hsi0]
      rfl
  have hc1 : 1 ≤ Nat.find hex := (Nat.find_spec hex).1
  have hcE : slotAt L ((h + Nat.find hex) % L.length) = none :=
    Option.isNone_iff_eq_none.mp (Nat.find_spec hex).2
  have hcn : Nat.find hex < L.length := by
    obtain ⟨i0, hi0, hsi0⟩ := occCount_lt_iff_exists_none hemp
    have hne : i0 ≠ h := by
      intro heq
      rw [heq, hs] at hsi0
      exact Option.noConfusion hsi0
    have hfind_le : Nat.find hex ≤ cdist L.length h i0 := by
      apply Nat.find_le
      constructor
      · rcases Nat.eq_zero_or_pos (cdist L.length h i0) with hz | hp
        · exfalso
          rw [cdist_eq hh hi0] at hz
          revert hz
          split <;> omega
        · exact hp
      · rw [add_cdist_mod hh hi0, hsi0]
        rfl
    exact lt_of_le_of_lt hfind_le (cdist_lt hh hi0)
  have hcRun : ∀ x, 1 ≤ x → x < Nat.find hex →
      (slotAt L ((h + x) % L.length)).isSome = true := by
    intro x hx1 hx2
    have hmin := Nat.find_min hex hx2
    cases hsx : slotAt L ((h + x) % L.length) with
    | none => exact absurd ⟨hx1, by rw [hsx]; rfl⟩ hmin
    | some p => rfl
  -- the hole-offset map: (h + x) % n = h iff x ≡ 0
  have hoff0 : ∀ x, 0 < x → x < L.length → (h + x) % L.length ≠ h := by
    intro x hx0 hxn heq
    have heq' : (h + x) % L.length = (h + 0) % L.length := by
      rw [Nat.add_zero, Nat.mod_eq_of_lt hh, heq]
    have := offset_inj h hxn hpos heq'
    omega
  -- size of the cleared table
  have hocc_cl := occCount_clear hh hs
  -- invariants at offset 1
  have hwalk := removeWalk_go hc hn rfl hreach hh hcn hcE hcRun δ (Nat.find hex - 1) 1
    L.length ⟨L.set h none, σ⟩ (by omega) (Nat.le_refl 1) (by omega)
    (by simp) (by show 2 * σ ≤ L.length; omega) (by show σ = _ + δ; simpa using hσ)
    (distinctKeys_clear hh hdis)
    (by
      intro x hx1 hx2
      show slotAt (L.set h none) ((h + x) % L.length) = slotAt L ((h + x) % L.length)
      exact slotAt_set_ne (fun heq => hoff0 x (by omega) (by omega) heq.symm) none)
    (by
      show slotAt (L.set h none) ((h + Nat.find hex) % L.length) = none
      rw [slotAt_set_ne (fun heq => hoff0 (Nat.find hex) (by omega) (by omega) heq.symm)]
      exact hcE)
    (by
      intro i hi p hsi hnotrun
      show reachAtB hash (L.set h none) i = true ∧ _
      have hih : i ≠ h := by
        intro heq
        rw [heq, slotAt_set_self hh] at hsi
        exact Option.noConfusion hsi
      have hsiL : slotAt L i = some p := by
        rw [slotAt_set_ne (Ne.symm hih)] at hsi
        exact hsi
      have hxi_pos : 0 < cdist L.length h i := by
        rcases Nat.eq_zero_or_pos (cdist L.length h i) with hz | hp
        · exfalso
          rw [cdist_eq hh hi] at hz
          revert hz
          split
          · intro hz
            exact hih (by omega)
          · intro hz
            omega
        · exact hp
      have hxi_gt : Nat.find hex < cdist L.length h i := by
        rcases Nat.lt_trichotomy (cdist L.length h i) (Nat.find hex) with hlt | heq | hgt
        · exfalso
          exact hnotrun (cdist L.length h i) (by omega) hlt
            (add_cdist_mod hh hi).symm
        · exfalso
          have : slotAt L i = none := by
            rw [show i = (h + Nat.find hex) % L.length from by
              rw [← heq, add_cdist_mod hh hi]]
            exact hcE
          rw [hsiL] at this
          exact Option.noConfusion this
        · exact hgt
      obtain ⟨kp, vp⟩ := p
      have hpath := initial_outside_path rfl hn hreach hh hcn hcE hi hsiL hxi_gt
      constructor
      · apply reachAtB_set_none (hreach i hi) hih
        intro p' hsp' d hd
        have hpp : p' = (kp, vp) := by
          rw [hsiL] at hsp'
          exact (Option.some.inj hsp').symm
        subst hpp
        intro heq
        have hcd := hpath d (le_of_lt hd)
        rw [heq] at hcd
        rw [show cdist L.length h h = 0 from cdist_self hh] at hcd
        omega
      · intro d hd x hx1 hx2 heq
        have hcd := hpath d hd
        rw [heq] at hcd
        rw [cdist_of_add hh, Nat.mod_eq_of_lt (by omega)] at hcd
        omega)
  obtain ⟨t', hw, hlen', hsize', hperm', hdis', hreach'⟩ := hwalk
  refine ⟨t', ?_, by simpa using hlen', hsize', hperm', hdis', hreach'⟩
  have haddr : (h + 1) &&& (L.length - 1) = (h + 1) % L.length := mask_eq_mod e hn _
  rw [haddr]
  have hlenset : (L.set h none).length = L.length := by simp
  rw [show removeWalk hash keq L.length ⟨L.set h none, σ⟩ ((h + 1) % L.length) =
    some t' from hw]

/-- `TFN(remove)` on a present key: returns the stored pair, shrinks `size`
by one, keeps the capacity, preserves the invariants, and the multiset of
stored pairs loses exactly the removed pair. -/
theorem remove_found_spec {hash : K → Nat} {keq : K → K → Bool} (hc : HContract hash keq)
    {t : T K V} (hwf : WF hash keq t) {k k0 : K} {v0 : V}
    (hl : lookupL keq t.entries k = some (k0, v0)) :
    ∃ t', remove hash keq t k = some (t', some (k0, v0)) ∧
      WF hash keq t' ∧
      t'.entries.length = t.entries.length ∧
      t'.size + 1 = t.size ∧
      List.Perm ((k0, v0) :: occPairs t'.entries) (occPairs t.entries) := by
  obtain ⟨⟨e, helt, hn⟩, h8, hsz, hload, hdis, hreach⟩ := hwf
  obtain ⟨hpmem, hpk⟩ := (lookupL_eq_some_iff hc hdis).mp hl
  obtain ⟨i, hi, hs⟩ := mem_occPairs.mp hpmem
  have hprobe := probe_finds_present hc hn hdis hreach hi hs hpk
  have hocc1 := occCount_pos hi hs
  have hocc_cl := occCount_clear hi hs
  have hemp : occCount t.entries < t.entries.length := by omega
  obtain ⟨t', hw, hlen', hsize', hperm', hdis', hreach'⟩ :=
    removeWalk_from_hole hc hn hdis hreach hi hs hemp (t.size - 1) 0
      (by omega) (by omega)
  refine ⟨t', ?_, ?_, hlen', by omega, ?_⟩
  · unfold remove
    rw [hprobe]
    simp only [hs, List.length_set]
    rw [hw]
    rfl
  · have hocc' : occCount t'.entries = occCount (t.entries.set i none) := by
      unfold occCount
      exact hperm'.length_eq
    exact ⟨⟨e, by omega, by omega⟩, by omega, by omega, by omega, hdis', hreach'⟩
  · exact (hperm'.cons (k0, v0)).trans (occPairs_clear_perm hi hs).symm

/-- `TFN(remove)` on an absent key: the probe ends at an empty slot and the
function returns 0 with the table untouched. -/
theorem remove_absent_spec {hash : K → Nat} {keq : K → K → Bool} {t : T K V} {k : K}
    {e : Nat} (hn : t.entries.length = 2 ^ e)
    (hemp : ∃ j, j < t.entries.length ∧ slotAt t.entries j = none)
    (habs : ∀ p ∈ occPairs t.entries, keq k p.1 = false) :
    remove hash keq t k = some (t, none) := by
  obtain ⟨m, hm, hprobe, hnone, _⟩ := probe_finds_absent t hn hemp habs
  unfold remove
  rw [hprobe]
  simp only [hnone]

/-- `TFN(iterator_remove)` when `last_entry` points at an occupied slot
(the state after a successful `iterator_next`): the entry is removed, the
walk succeeds, `size` drops by one, the capacity is unchanged and the
invariants still hold. -/
theorem iterator_remove_spec {hash : K → Nat} {keq : K → K → Bool} (hc : HContract hash keq)
    {it : iterator_t K V} (hwf : WF hash keq it.hash) {i : Nat}
    (hle : it.last_entry = (i : Int)) (hi : i < it.hash.entries.length)
    {k0 : K} {v0 : V} (hs : slotAt it.hash.entries i = some (k0, v0)) :
    ∃ it', iterator_remove hash keq it = some it' ∧
      WF hash keq it'.hash ∧
      it'.hash.entries.length = it.hash.entries.length ∧
      it'.hash.size + 1 = it.hash.size ∧
      it'.last_entry = it.last_entry ∧
      List.Perm ((k0, v0) :: occPairs it'.hash.entries) (occPairs it.hash.entries) := by
  obtain ⟨⟨e, helt, hn⟩, h8, hsz, hload, hdis, hreach⟩ := hwf
  have hocc1 := occCount_pos hi hs
  have hocc_cl := occCount_clear hi hs
  have hemp : occCount it.hash.entries < it.hash.entries.length := by omega
  obtain ⟨t2, hw, hlen', hsize', hperm', hdis', hreach'⟩ :=
    removeWalk_from_hole hc hn hdis hreach hi hs hemp it.hash.size 1
      (by omega) (by omega)
  have htn : it.last_entry.toNat = i := by
    rw [hle]
    simp
  have hocc2 : occCount t2.entries = occCount (it.hash.entries.set i none) := by
    unfold occCount
    exact hperm'.length_eq
  refine ⟨⟨⟨t2.entries, t2.size - 1⟩, it.last_entry⟩, ?_, ?_, by simpa using hlen',
    by show t2.size - 1 + 1 = it.hash.size; omega, rfl, ?_⟩
  · unfold iterator_remove
    simp only [htn, List.length_set]
    rw [hw]
  · refine ⟨⟨e, ?_, ?_⟩, ?_, ?_, ?_, hdis', hreach'⟩
    · show e < t2.entries.length
      omega
    · show t2.entries.length = 2 ^ e
      omega
    · show 8 ≤ t2.entries.length
      omega
    · show t2.size - 1 = occCount t2.entries
      omega
    · show 2 * (t2.size - 1) ≤ t2.entries.length
      omega
  · exact (hperm'.cons (k0, v0)).trans (occPairs_clear_perm hi hs).symm

/-- `TFN(copy)`: all reinsertions into the fresh table of capacity
`create_capacity(size)` succeed, and the copy holds the same pairs and
satisfies the invariants. -/
theorem copy_spec {hash : K → Nat} {keq : K → K → Bool} (hc : HContract hash keq)
    {t : T K V} (hwf : WF hash keq t) :
    ∃ t', copy hash keq t = some t' ∧ WF hash keq t' ∧ t'.size = t.size ∧
      List.Perm (occPairs t'.entries) (occPairs t.entries) := by
  obtain ⟨⟨e, helt, hn⟩, h8, hsz, hload, hdis, hreach⟩ := hwf
  obtain ⟨e', he3', hpe'⟩ := specGrowthTarget_pow t.size
  have hclen : (create_capacity t.size : T K V).entries.length = 2 ^ e' := by
    rw [create_capacity_len, hpe']
  have htarget := specGrowthTarget_spec t.size
  have hoccz : occCount (create_capacity t.size : T K V).entries = 0 := by
    simp [create_capacity, occCount, occPairs_replicate]
  have hdisz : DistinctKeys keq (create_capacity t.size : T K V).entries := by
    simp [create_capacity, DistinctKeys, occPairs_replicate]
  have hoz : occPairs (create_capacity t.size : T K V).entries = [] := by
    simp [create_capacity, occPairs_replicate]
  obtain ⟨t', hr, hlen', hsize', hszocc', hdis', hreach', hperm'⟩ :=
    reinsertAll_spec hc 1 t.entries (create_capacity t.size) hclen
      (by rw [create_capacity_size, hoccz])
      hdisz (reach_replicate hash _)
      (by
        rw [create_capacity_size, create_capacity_len, hpe']
        rw [← hpe']
        show 2 * (0 + occCount t.entries) ≤ specGrowthTarget t.size
        omega)
      hdis
      (by
        intro p hp q hq
        rw [hoz] at hq
        exact absurd hq (List.not_mem_nil q))
  refine ⟨t', hr, ?_, ?_, ?_⟩
  · refine ⟨⟨e', ?_, by omega⟩, ?_, hszocc', ?_, hdis', hreach'⟩
    · have := Nat.lt_two_pow e'
      omega
    · have h8' : (8 : Nat) ≤ 2 ^ e' := by
        calc (8 : Nat) = 2 ^ 3 := by norm_num
        _ ≤ 2 ^ e' := Nat.pow_le_pow_right (by omega) he3'
      omega
    · rw [hsize', create_capacity_size]
      have : t'.entries.length = 2 ^ e' := by omega
      rw [this, ← hpe']
      omega
  · rw [hsize', create_capacity_size, Nat.zero_add, hsz]
  · rw [hoz] at hperm'
    simpa using hperm'

/-! ## The iterator -/

theorem findFrom_stop {l : List (Slot K V)} {i : Nat} (h : ¬ i < l.length) :
    findFrom l i = none := by
  rw [findFrom]
  rw [dif_neg h]

theorem findFrom_found {l : List (Slot K V)} {i : Nat} (h : i < l.length) {k : K} {v : V}
    (hs : slotAt l i = some (k, v)) : findFrom l i = some (i, k, v) := by
  rw [findFrom]
  rw [dif_pos h, hs]

theorem findFrom_skip {l : List (Slot K V)} {i : Nat} (h : i < l.length)
    (hs : slotAt l i = none) : findFrom l i = findFrom l (i + 1) := by
  rw [findFrom]
  rw [dif_pos h, hs]

theorem iterTrace_succ (f : Nat) (it : iterator_t K V) :
    iterTrace (f + 1) it =
      match iterator_next it with
      | none => []
      | some ((k, v), it') => (it'.last_entry, k, v) :: iterTrace f it' := rfl

/-- The element the trace reports for slot `j`. -/
def traceEntry (l : List (Slot K V)) (j : Nat) : Option (Int × K × V) :=
  (slotAt l j).map fun q => ((j : Int), q.1, q.2)

/-- The trace of `iterator_next` from scan position `i` onward: exactly the
occupied slots at indices `≥ i`, in increasing index order. -/
theorem iterTrace_from (t : T K V) :
    ∀ fuel i, t.entries.length + 1 - i ≤ fuel →
      iterTrace fuel ⟨t, (i : Int) - 1⟩ =
        (List.range' i (t.entries.length - i)).filterMap (traceEntry t.entries) := by
  intro fuel
  induction fuel with
  | zero =>
    intro i h
    have : t.entries.length - i = 0 := by omega
    rw [this]
    rfl
  | succ f' ihf =>
    have inner : ∀ m i, t.entries.length - i ≤ m → t.entries.length + 1 - i ≤ f' + 1 →
        iterTrace (f' + 1) ⟨t, (i : Int) - 1⟩ =
          (List.range' i (t.entries.length - i)).filterMap (traceEntry t.entries) := by
      intro m
      induction m with
      | zero =>
        intro i hm _
        have hge : ¬ i < t.entries.length := by omega
        rw [iterTrace_succ]
        have hnext : iterator_next (⟨t, (i : Int) - 1⟩ : iterator_t K V) = none := by
          unfold iterator_next
          have htn : ((i : Int) - 1 + 1).toNat = i := by
            simp
          rw [htn, findFrom_stop hge]
        rw [hnext]
        have : t.entries.length - i = 0 := by omega
        rw [this]
        rfl
      | succ m' ihm =>
        intro i hm hf
        by_cases hlt : i < t.entries.length
        · have htn : ((i : Int) - 1 + 1).toNat = i := by simp
          have hrange : t.entries.length - i = (t.entries.length - (i + 1)) + 1 := by
            omega
          cases hsi : slotAt t.entries i with
          | none =>
            have hnext : iterator_next (⟨t, (i : Int) - 1⟩ : iterator_t K V) =
                iterator_next (⟨t, ((i + 1 : Nat) : Int) - 1⟩ : iterator_t K V) := by
              unfold iterator_next
              have htn' : (((i + 1 : Nat) : Int) - 1 + 1).toNat = i + 1 := by simp
              rw [htn, htn', findFrom_skip hlt hsi]
            have hstep : iterTrace (f' + 1) (⟨t, (i : Int) - 1⟩ : iterator_t K V) =
                iterTrace (f' + 1) (⟨t, ((i + 1 : Nat) : Int) - 1⟩ : iterator_t K V) := by
              rw [iterTrace_succ, iterTrace_succ, hnext]
            rw [hstep, ihm (i + 1) (by omega) (by omega)]
            rw [hrange, List.range'_succ]
            rw [List.filterMap_cons]
            have hte : traceEntry t.entries i = none := by
              unfold traceEntry
              rw [hsi]
              rfl
            rw [hte]
          | some q =>
            obtain ⟨k, v⟩ := q
            have hnext : iterator_next (⟨t, (i : Int) - 1⟩ : iterator_t K V) =
                some ((k, v), ⟨t, (i : Int)⟩) := by
              unfold iterator_next
              rw [htn, findFrom_found hlt hsi]
            rw [iterTrace_succ, hnext]
            have hrec : iterTrace f' (⟨t, (i : Int)⟩ : iterator_t K V) =
                (List.range' (i + 1) (t.entries.length - (i + 1))).filterMap
                  (traceEntry t.entries) := by
              have hcast : ((i : Int)) = ((i + 1 : Nat) : Int) - 1 := by
                push_cast
                ring
              rw [hcast]
              exact ihf (i + 1) (by omega)
            show ((i : Int), k, v) :: iterTrace f' (⟨t, (i : Int)⟩ : iterator_t K V) = _
            rw [hrec, hrange, List.range'_succ, List.filterMap_cons]
            have hte : traceEntry t.entries i = some ((i : Int), k, v) := by
              unfold traceEntry
              rw [hsi]
              rfl
            rw [hte]
        · rw [iterTrace_succ]
          have hnext : iterator_next (⟨t, (i : Int) - 1⟩ : iterator_t K V) = none := by
            unfold iterator_next
            have htn : ((i : Int) - 1 + 1).toNat = i := by simp
            rw [htn, findFrom_stop hlt]
          rw [hnext]
          have : t.entries.length - i = 0 := by omega
          rw [this]
          rfl
    intro i h
    exact inner (t.entries.length - i) i (Nat.le_refl _) h

/-- A full pass from `iterator_init`, with any sufficient fuel. -/
theorem iterTrace_init (t : T K V) (fuel : Nat) (hfuel : t.entries.length + 1 ≤ fuel) :
    iterTrace fuel (iterator_init t) =
      (List.range t.entries.length).filterMap (traceEntry t.entries) := by
  have h0 : iterator_init t = (⟨t, ((0 : Nat) : Int) - 1⟩ : iterator_t K V) := by
    unfold iterator_init
    rfl
  rw [h0, iterTrace_from t fuel 0 (by omega), List.range_eq_range']
  rfl

theorem trace_pairs_go (l0 : List (Slot K V)) :
    ∀ (l : List (Slot K V)) (i : Nat),
      (∀ j, j < l.length → slotAt l0 (i + j) = slotAt l j) →
      ((List.range' i l.length).filterMap (traceEntry l0)).map (fun x => x.2) =
        occPairs l := by
  intro l
  induction l with
  | nil =>
    intro i _
    rfl
  | cons s rest ih =>
    intro i hsl
    rw [List.length_cons, List.range'_succ, List.filterMap_cons]
    have hs0 : slotAt l0 i = s := by
      have := hsl 0 (by simp)
      rw [Nat.add_zero] at this
      rw [this]
      rfl
    have hrec := ih (i + 1) (by
      intro j hj
      have := hsl (j + 1) (by simpa using Nat.succ_lt_succ hj)
      rw [show i + (j + 1) = i + 1 + j by omega] at this
      rw [this]
      rfl)
    cases s with
    | none =>
      have hte : traceEntry l0 i = none := by
        unfold traceEntry
        rw [hs0]
        rfl
      rw [hte, hrec]
      rfl
    | some q =>
      have hte : traceEntry l0 i = some ((i : Int), q.1, q.2) := by
        unfold traceEntry
        rw [hs0]
        rfl
      rw [hte]
      rw [List.map_cons, hrec]
      rfl

/-- Projecting the trace onto pairs yields exactly `occPairs`, in slot order. -/
theorem iterTrace_pairs (l : List (Slot K V)) :
    ((List.range l.length).filterMap (traceEntry l)).map (fun x => x.2) = occPairs l := by
  rw [List.range_eq_range']
  exact trace_pairs_go l l 0 (fun j _ => by rw [Nat.zero_add])

/-! ## A concrete run: 17 distinct keys through `create`, identity hash -/

instance : DecidableEq (T Nat Nat) := fun a b => by
  cases a with
  | mk ae asz =>
    cases b with
    | mk be bsz =>
      cases decEq ae be with
      | isTrue h1 =>
        cases decEq asz bsz with
        | isTrue h2 => exact isTrue (by rw [h1, h2])
        | isFalse h2 => exact isFalse (fun h => h2 (congrArg T.size h))
      | isFalse h1 => exact isFalse (fun h => h1 (congrArg T.entries h))

/-- The table after inserting keys `0, …, j-1` (value `10 k`) with the
identity hash into `create`: key `k` sits in slot `k` of the 32-slot array. -/
def mkT (j : Nat) : T Nat Nat :=
  ⟨((List.range j).map fun k => some (k, 10 * k)) ++ List.replicate (32 - j) none, j⟩

/-- The table after the 17th insert: the rehash moved everything into a fresh
128-slot array, key `k` again in slot `k`. -/
def mkBig : T Nat Nat :=
  ⟨((List.range 17).map fun k => some (k, 10 * k)) ++ List.replicate 111 none, 17⟩

theorem putAll_cons {hash : K → Nat} {keq : K → K → Bool} (p : K × V) (ps : List (K × V))
    (t : T K V) :
    putAll hash keq (p :: ps) t =
      ((put hash keq t p.1 p.2).map Prod.fst).bind
        (fun t' => putAll hash keq ps t') := rfl

theorem putAll_chain {hash : K → Nat} {keq : K → K → Bool} (f : Nat → K × V)
    (tb : Nat → T K V) :
    ∀ n s, (∀ j, s ≤ j → j < s + n →
        put hash keq (tb j) (f j).1 (f j).2 = some (tb (j + 1), none)) →
      putAll hash keq ((List.range' s n).map f) (tb s) = some (tb (s + n)) := by
  intro n
  induction n with
  | zero =>
    intro s _
    rfl
  | succ n ih =>
    intro s hstep
    rw [List.range'_succ, List.map_cons, putAll_cons,
      hstep s (Nat.le_refl s) (by omega)]
    show putAll hash keq ((List.range' (s + 1) n).map f) (tb (s + 1)) = _
    rw [ih (s + 1) (fun j h1 h2 => hstep j (by omega) (by omega))]
    rw [show s + 1 + n = s + (n + 1) by omega]

/-- The fresh 128-slot table of the 17th insert's rehash, after reinserting
keys `0, …, j-1`. -/
def bigT (j : Nat) : T Nat Nat :=
  ⟨((List.range j).map fun k => some (k, 10 * k)) ++ List.replicate (128 - j) none, j⟩

theorem reinsertAll_replicate_none {hash : K → Nat} {keq : K → K → Bool} (gf : Nat) :
    ∀ (m : Nat) (dst : T K V),
      reinsertAll hash keq gf (List.replicate m none) dst = some dst := by
  intro m
  induction m with
  | zero =>
    intro dst
    rfl
  | succ m ih =>
    intro dst
    rw [List.replicate_succ, reinsertAll_cons_none]
    exact ih dst

theorem reinsertAll_chain {hash : K → Nat} {keq : K → K → Bool} {gf : Nat} (f : Nat → K × V)
    (tb : Nat → T K V) (tail : List (Slot K V)) :
    ∀ n s, (∀ j, s ≤ j → j < s + n →
        putF hash keq gf (tb j) (f j).1 (f j).2 = some (tb (j + 1), none)) →
      reinsertAll hash keq gf (((List.range' s n).map fun k => some (f k)) ++ tail) (tb s) =
        reinsertAll hash keq gf tail (tb (s + n)) := by
  intro n
  induction n with
  | zero =>
    intro s _
    rfl
  | succ n ih =>
    intro s hstep
    rw [List.range'_succ, List.map_cons, List.cons_append]
    have hfs : (some (f s) : Slot K V) = some ((f s).1, (f s).2) := rfl
    rw [hfs, reinsertAll_cons_some, hstep s (Nat.le_refl s) (by omega)]
    show reinsertAll hash keq gf (((List.range' (s + 1) n).map fun k => some (f k)) ++ tail)
      (tb (s + 1)) = _
    rw [ih (s + 1) (fun j h1 h2 => hstep j (by omega) (by omega))]
    rw [show s + 1 + n = s + (n + 1) by omega]

theorem beq_false_of_ne {a b : Nat} (hne : a ≠ b) : Nat.beq a b = false := by
  cases hx : Nat.beq a b with
  | false => rfl
  | true => exact absurd (Nat.eq_of_beq_eq_true hx) hne

/-- The occupied pairs of an identity-layout array. -/
theorem occPairs_range_map (j m : Nat) :
    occPairs (((List.range j).map fun k => (some (k, 10 * k) : Slot Nat Nat)) ++
        List.replicate m none) = (List.range j).map fun k => (k, 10 * k) := by
  unfold occPairs
  rw [List.filterMap_append, List.filterMap_map]
  have h2 : List.filterMap (id ∘ fun k => (some (k, 10 * k) : Slot Nat Nat))
      (List.range j) = (List.range j).map fun k => (k, 10 * k) :=
    List.filterMap_eq_map (fun k => (k, 10 * k)) ▸ rfl
  rw [h2]
  have h3 : List.filterMap id (List.replicate m (none : Slot Nat Nat)) = [] := by
    show occPairs (List.replicate m none) = []
    exact occPairs_replicate m
  rw [h3, List.append_nil]

/-- One insert of a fresh key `j` into the identity-layout table of `j` keys:
the probe starts at home slot `j`, which is `Empty`, so the key lands there,
and with `2*(j+1) ≤ n` the growth trigger stays quiet. -/
theorem putF_identity_step {n e : Nat} (hn : n = 2 ^ e) (j : Nat) (hj : 2 * (j + 1) ≤ n)
    (hjn : j < n) (hsmall : j < 2 ^ 32) (gf : Nat) :
    putF (fun k => k) Nat.beq gf
      ⟨((List.range j).map fun k => some (k, 10 * k)) ++ List.replicate (n - j) none, j⟩
      j (10 * j) =
      some (⟨((List.range (j + 1)).map fun k => some (k, 10 * k)) ++
        List.replicate (n - (j + 1)) none, j + 1⟩, none) := by
  set L : List (Slot Nat Nat) :=
    ((List.range j).map fun k => some (k, 10 * k)) ++ List.replicate (n - j) none with hL
  have hlenA : ((List.range j).map fun k => (some (k, 10 * k) : Slot Nat Nat)).length = j := by
    simp
  have hlen : L.length = n := by
    rw [hL]
    simp
    omega
  have hslot : slotAt L j = none := by
    rw [hL]
    unfold slotAt
    rw [List.getD_append_right _ _ _ _ (le_of_eq hlenA)]
    exact slotAt_replicate _ _
  have habs : ∀ p ∈ occPairs L, Nat.beq j p.1 = false := by
    intro p hp
    rw [hL, occPairs_range_map] at hp
    obtain ⟨k, hk, rfl⟩ := List.mem_map.mp hp
    rw [List.mem_range] at hk
    have : j ≠ k := by omega
    exact beq_false_of_ne this
  have hemp : ∃ i, i < L.length ∧ slotAt L i = none := ⟨j, by omega, hslot⟩
  have hT : (⟨L, j⟩ : T Nat Nat).entries = L := rfl
  have hhome : homeIdx (fun k => k) L.length j = j := by
    unfold homeIdx keyhash
    rw [Nat.mod_eq_of_lt hsmall, hlen, mask_eq_mod e hn, Nat.mod_eq_of_lt hjn]
  obtain ⟨m, hm, hprobe, hnone, hmin⟩ :=
    probe_finds_absent (⟨L, j⟩ : T Nat Nat) (show (⟨L, j⟩ : T Nat Nat).entries.length = 2 ^ e
      from by rw [hT, hlen, hn]) (by rw [hT]; exact hemp) (by rw [hT]; exact habs)
  rw [hT] at hprobe hnone hmin hm
  have hm0 : m = 0 := by
    by_contra hm0
    have h0 := hmin 0 (by omega)
    rw [hhome] at h0
    unfold stopB at h0
    rw [show (j + 0) % L.length = j from by
      rw [Nat.add_zero, hlen]; exact Nat.mod_eq_of_lt hjn] at h0
    rw [hslot] at h0
    exact Bool.noConfusion h0
  rw [hm0] at hprobe
  rw [hhome] at hprobe
  rw [show (j + 0) % L.length = j from by
    rw [Nat.add_zero, hlen]; exact Nat.mod_eq_of_lt hjn] at hprobe
  rw [putF_eq]
  simp only [hT, hprobe, hslot]
  rw [if_neg (by
    rw [List.length_set, hlen]
    unfold THASH_FACTOR_CRITICAL
    omega)]
  have hset : L.set j (some (j, 10 * j)) =
      ((List.range (j + 1)).map fun k => some (k, 10 * k)) ++
        List.replicate (n - (j + 1)) none := by
    rw [hL]
    rw [List.set_append_right _ _ (by omega)]
    rw [hlenA]
    rw [show j - j = 0 from by omega]
    rw [show n - j = (n - (j + 1)) + 1 from by omega, List.replicate_succ]
    rw [List.set_cons_zero]
    rw [List.range_succ, List.map_append]
    simp
  rw [hset]

/-- Each of the first 16 inserts of the concrete run: key `j` goes to slot `j`,
no rehash (the trigger stays quiet while `2*size ≤ 32`). -/
theorem put16_steps : ∀ j, j < 16 →
    put (fun k => k) Nat.beq (mkT j) j (10 * j) = some (mkT (j + 1), none) := by
  intro j hj
  unfold put
  have h := putF_identity_step (show (32 : Nat) = 2 ^ 5 from by norm_num) j
    (by omega) (by omega) (by omega) 1
  exact h

/-- Each reinsertion of the 17th insert's rehash: key `j` goes to slot `j` of
the 128-slot array, and the nested growth check never fires. -/
theorem put17_steps : ∀ j, j < 17 →
    putF (fun k => k) Nat.beq 0 (bigT j) j (10 * j) = some (bigT (j + 1), none) := by
  intro j hj
  have h := putF_identity_step (show (128 : Nat) = 2 ^ 7 from by norm_num) j
    (by omega) (by omega) (by omega) 0
  exact h

/-- The full reinsertion pass of the 17th insert's rehash. -/
theorem rehash17 :
    reinsertAll (fun k => k) Nat.beq 0
      (((List.range' 0 17).map fun k => some (k, 10 * k)) ++ List.replicate 15 none)
      (bigT 0) = some mkBig :=
  (reinsertAll_chain (fun k => (k, 10 * k)) bigT (List.replicate 15 none) 17 0
    (fun j _ h2 => put17_steps j (by omega))).trans
    (by rw [reinsertAll_replicate_none]; rfl)

/-- The rehash branch of `putF`, symbolically: a fresh key whose probe ends at
an `Empty` slot, with the growth trigger firing after the insert, hands the
filled array to `reinsertAll` on a fresh `create_capacity(size+2)` table. -/
theorem putF_trigger_step (i : Nat) {hash : K → Nat} {keq : K → K → Bool} {t : T K V}
    {k : K} {v : V} {gf : Nat} {res : T K V}
    (hprobe : probe hash keq t k = some i)
    (hslot : slotAt t.entries i = none)
    (htrig : t.entries.length < THASH_FACTOR_CRITICAL * (t.size + 1))
    (hre : reinsertAll hash keq gf (t.entries.set i (some (k, v)))
      (create_capacity (t.size + 1 + 1)) = some res) :
    putF hash keq (gf + 1) t k v = some (res, none) := by
  rw [putF_eq, hprobe]
  simp only [hslot]
  rw [if_pos (by simp only [List.length_set]; exact htrig)]
  simp only [hre]

set_option maxRecDepth 40000 in
/-- The 17th insert of the concrete run: the growth trigger `32 < 2*17` fires
and the rehash lands everything in the 128-slot table. -/
theorem put_seventeenth :
    put (fun k => k) Nat.beq (mkT 16) 16 160 = some (mkBig, none) := by
  unfold put
  exact putF_trigger_step 16 (by decide) (by decide) (by decide)
    (by
      rw [show (mkT 16).entries.set 16 (some (16, 160)) =
        ((List.range' 0 17).map fun k => some (k, 10 * k)) ++ List.replicate 15 none from
        by decide]
      rw [show (create_capacity ((mkT 16).size + 1 + 1) : T Nat Nat) = bigT 0 from
        by decide]
      exact rehash17)

/-- The identity hash and `Nat.beq` satisfy the §6 contract. -/
theorem hcontract_nat : HContract (fun k : Nat => k) Nat.beq := by
  refine ⟨?_, ?_, ?_, ?_⟩
  · intro a
    exact Nat.beq_refl a
  · intro a b h
    rw [Nat.eq_of_beq_eq_true h]
    exact Nat.beq_refl b
  · intro a b c h1 h2
    rw [Nat.eq_of_beq_eq_true h1]
    exact h2
  · intro a b h
    rw [Nat.eq_of_beq_eq_true h]

/-- The final 128-slot table of the concrete run satisfies the §3 invariants. -/
theorem wf_mkBig : WF (fun k : Nat => k) Nat.beq mkBig := by
  have hlen : mkBig.entries.length = 128 := by
    show (((List.range 17).map fun k => (some (k, 10 * k) : Slot Nat Nat)) ++
      List.replicate 111 none).length = 128
    simp
  have hocc : occPairs mkBig.entries = (List.range 17).map fun k => (k, 10 * k) :=
    occPairs_range_map 17 111
  refine ⟨⟨7, by omega, by rw [hlen]; rfl⟩, by omega, ?_, ?_, ?_, ?_⟩
  · show (17 : Nat) = occCount mkBig.entries
    unfold occCount
    rw [hocc]
    simp
  · show 2 * (17 : Nat) ≤ mkBig.entries.length
    omega
  · show DistinctKeys Nat.beq mkBig.entries
    unfold DistinctKeys
    rw [hocc, List.pairwise_map]
    apply List.Pairwise.imp ?_ (List.pairwise_lt_range 17)
    intro a b hab
    exact beq_false_of_ne (by omega)
  · intro i hi
    apply reachAtB_intro
    intro k v hs
    rw [hlen]
    have hik : i = k := by
      by_cases hcase : i < 17
      · have : slotAt mkBig.entries i = some (i, 10 * i) := by
          show slotAt ((((List.range 17).map fun k => some (k, 10 * k))) ++
            List.replicate 111 none) i = some (i, 10 * i)
          unfold slotAt
          rw [List.getD_append _ _ _ _ (by simpa using hcase)]
          rw [List.getD_eq_getElem _ _ (by simpa using hcase)]
          simp
        rw [this] at hs
        exact congrArg Prod.fst (Option.some.inj hs)
      · exfalso
        have : slotAt mkBig.entries i = none := by
          show slotAt ((((List.range 17).map fun k => some (k, 10 * k))) ++
            List.replicate 111 none) i = none
          unfold slotAt
          rw [List.getD_append_right _ _ _ _ (by simpa using hcase)]
          exact slotAt_replicate _ _
        rw [this] at hs
        exact Option.noConfusion hs
    intro d hd
    exfalso
    have hk17 : k < 17 := by
      by_contra hcase
      have : slotAt mkBig.entries i = none := by
        show slotAt ((((List.range 17).map fun k => some (k, 10 * k))) ++
          List.replicate 111 none) i = none
        unfold slotAt
        rw [List.getD_append_right _ _ _ _ (by simp; omega)]
        exact slotAt_replicate _ _
      rw [this] at hs
      exact Option.noConfusion hs
    have hhome : homeIdx (fun k2 : Nat => k2) 128 k = k := by
      unfold homeIdx keyhash
      rw [Nat.mod_eq_of_lt (by omega : k < 2 ^ 32),
        mask_eq_mod 7 (by norm_num : (128 : Nat) = 2 ^ 7), Nat.mod_eq_of_lt (by omega)]
    rw [hhome, hik] at hd
    rw [cdist_self (by omega)] at hd
    omega

theorem get_seventeen : ∀ k, k < 17 →
    get (fun k2 => k2) Nat.beq mkBig k = some (some (10 * k)) := by
  intro k hk
  rw [get_spec hcontract_nat wf_mkBig]
  have hocc : occPairs mkBig.entries = (List.range 17).map fun k => (k, 10 * k) :=
    occPairs_range_map 17 111
  have hdis := wf_mkBig.2.2.2.2.1
  have hlk : lookupL Nat.beq mkBig.entries k = some (k, 10 * k) := by
    apply (lookupL_eq_some_iff hcontract_nat hdis).mpr
    constructor
    · rw [hocc]
      exact List.mem_map.mpr ⟨k, List.mem_range.mpr hk, rfl⟩
    · exact Nat.beq_refl k
  rw [hlk]
  rfl

/-- The slot index recorded in a trace element. -/
theorem traceEntry_fst {l : List (Slot K V)} {j : Nat} {x : Int × K × V}
    (h : traceEntry l j = some x) : x.1 = (j : Int) := by
  unfold traceEntry at h
  cases hsl : slotAt l j with
  | none =>
    rw [hsl] at h
    exact Option.noConfusion h
  | some q =>
    rw [hsl] at h
    simp only [Option.map_some'] at h
    rw [← Option.some.inj h]

theorem pairwise_fst_lt_go (l0 : List (Slot K V)) :
    ∀ n s, List.Pairwise (fun a b : Int × K × V => a.1 < b.1)
      ((List.range' s n).filterMap (traceEntry l0)) := by
  intro n
  induction n with
  | zero =>
    intro s
    exact List.Pairwise.nil
  | succ n ih =>
    intro s
    rw [List.range'_succ, List.filterMap_cons]
    cases hte : traceEntry l0 s with
    | none => exact ih (s + 1)
    | some x =>
      refine List.Pairwise.cons ?_ (ih (s + 1))
      intro y hy
      obtain ⟨j, hj, hjy⟩ := List.mem_filterMap.mp hy
      have hjge : s + 1 ≤ j := (List.mem_range'_1.mp hj).1
      rw [traceEntry_fst hte, traceEntry_fst hjy]
      exact_mod_cast (by omega : s < j)

/-- The trace indices are strictly increasing. -/
theorem iterTrace_sorted (l : List (Slot K V)) :
    List.Pairwise (fun a b : Int × K × V => a.1 < b.1)
      ((List.range l.length).filterMap (traceEntry l)) := by
  rw [List.range_eq_range']
  exact pairwise_fst_lt_go l l.length 0

/-! ## Sample tables used to instantiate the claims -/

/-- An 8-slot table with two entries at their home slots. -/
def t8 : T Nat Nat :=
  ⟨[some (0, 100), some (1, 101), none, none, none, none, none, none], 2⟩

/-- An 8-slot table with four entries: the next insert fires the trigger. -/
def t4 : T Nat Nat :=
  ⟨[some (0, 10), some (1, 11), some (2, 12), some (3, 13), none, none, none, none], 4⟩

/-! ## The claims -/

/-- C1: on a well-formed table (§3 invariants, §6 contract) containing key `k`
with stored pair `(k0, v0)`, `remove(k)` returns that pair, `size` drops by
exactly one, a subsequent `get(k)` is not-found, and every other key's `get`
is unchanged after the backward-shift reinsertion. -/
theorem claim_C1 {hash : K → Nat} {keq : K → K → Bool} (hc : HContract hash keq)
    {t : T K V} (hwf : WF hash keq t) {k k0 : K} {v0 : V}
    (hl : lookupL keq t.entries k = some (k0, v0)) :
    ∃ t', remove hash keq t k = some (t', some (k0, v0)) ∧
      t'.size + 1 = t.size ∧
      get hash keq t' k = some none ∧
      ∀ k2, keq k k2 = false → get hash keq t' k2 = get hash keq t k2 := by
  have hdis := hwf.2.2.2.2.1
  obtain ⟨t', hrm, hwf', hlen', hsz', hperm⟩ := remove_found_spec hc hwf hl
  have hdis' := hwf'.2.2.2.2.1
  have hk0 : keq k k0 = true := ((lookupL_eq_some_iff hc hdis).mp hl).2
  refine ⟨t', hrm, hsz', ?_, ?_⟩
  · rw [get_spec hc hwf']
    have hzero : (occPairs t'.entries).countP (fun q => keq k q.1) = 0 := by
      have hcnt := countP_match_le_one hc hdis k
      have heq := hperm.countP_eq (fun q => keq k q.1)
      rw [List.countP_cons] at heq
      simp only [hk0, if_pos] at heq
      omega
    have hnone : lookupL keq t'.entries k = none := by
      rw [lookupL_eq_none_iff]
      intro p hp
      have := List.countP_eq_zero.mp hzero p hp
      simpa using this
    rw [hnone]
    rfl
  · intro k2 hk2
    rw [get_spec hc hwf', get_spec hc hwf]
    have hne0 : ∀ p : K × V, keq k2 p.1 = true → p ≠ (k0, v0) := by
      intro p hp heq
      subst heq
      have h1 : keq k0 k2 = true := hc.symm k2 k0 hp
      have h2 : keq k k2 = true := hc.trans k k0 k2 hk0 h1
      rw [hk2] at h2
      exact Bool.noConfusion h2
    have hmem : ∀ p : K × V, keq k2 p.1 = true →
        (p ∈ occPairs t'.entries ↔ p ∈ occPairs t.entries) := by
      intro p hp
      rw [← hperm.mem_iff]
      constructor
      · intro h
        exact List.mem_cons_of_mem _ h
      · intro h
        rcases List.mem_cons.mp h with h1 | h1
        · exact absurd h1 (hne0 p hp)
        · exact h1
    have hlk : lookupL keq t'.entries k2 = lookupL keq t.entries k2 := by
      cases hcase : lookupL keq t.entries k2 with
      | some p =>
        obtain ⟨hpm, hpk⟩ := (lookupL_eq_some_iff hc hdis).mp hcase
        exact (lookupL_eq_some_iff hc hdis').mpr ⟨(hmem p hpk).mpr hpm, hpk⟩
      | none =>
        rw [lookupL_eq_none_iff] at hcase ⊢
        intro p hp
        by_contra hb
        have hpt : keq k2 p.1 = true := by
          cases hx : keq k2 p.1
          · exact absurd hx hb
          · rfl
        have := hcase p ((hmem p hpt).mp hp)
        rw [hpt] at this
        exact Bool.noConfusion this
    rw [hlk]

theorem claim_C1_witness :
    ∃ t', remove (fun k : Nat => k) Nat.beq t8 0 = some (t', some (0, 100)) ∧
      t'.size + 1 = t8.size ∧
      get (fun k : Nat => k) Nat.beq t' 0 = some none ∧
      ∀ k2, Nat.beq 0 k2 = false →
        get (fun k : Nat => k) Nat.beq t' k2 = get (fun k : Nat => k) Nat.beq t8 k2 :=
  claim_C1 hcontract_nat (by decide) (by decide)

/-- C2: on a well-formed table with a contract-satisfying hash/equality pair,
`put(k, v)` succeeds and an immediate `get(k)` reports found with value `v`. -/
theorem claim_C2 {hash : K → Nat} {keq : K → K → Bool} (hc : HContract hash keq)
    {t : T K V} (hwf : WF hash keq t) (k : K) (v : V) :
    ∃ t' r, put hash keq t k v = some (t', r) ∧
      get hash keq t' k = some (some v) := by
  cases hl : lookupL keq t.entries k with
  | some p =>
    obtain ⟨k0, v0⟩ := p
    obtain ⟨t', hput, hwf', _, _, hlk⟩ := put_spec_found hc hwf hl v
    refine ⟨t', some (k0, v0), hput, ?_⟩
    rw [get_spec hc hwf', hlk]
    rfl
  | none =>
    obtain ⟨t', hput, hwf', hsz', hperm, _⟩ := put_spec_absent hc hwf hl v
    have hdis' := hwf'.2.2.2.2.1
    refine ⟨t', none, hput, ?_⟩
    rw [get_spec hc hwf']
    have hlk : lookupL keq t'.entries k = some (k, v) := by
      apply (lookupL_eq_some_iff hc hdis').mpr
      exact ⟨hperm.mem_iff.mpr (List.mem_cons_self _ _), hc.refl k⟩
    rw [hlk]
    rfl

theorem claim_C2_witness :
    ∃ t' r, put (fun k : Nat => k) Nat.beq t8 5 50 = some (t', r) ∧
      get (fun k : Nat => k) Nat.beq t' 5 = some (some 50) :=
  claim_C2 hcontract_nat (by decide) 5 50

/-- C3: the concrete run from `create()`: capacity 32 and size 0 initially;
16 distinct inserts keep capacity 32 with size 16; the 17th distinct insert
triggers the rehash giving size 17, capacity 128, and all 17 keys retrievable
with their values. -/
theorem claim_C3 :
    (create : T Nat Nat).entries.length = 32 ∧ (create : T Nat Nat).size = 0 ∧
    ∃ t16 t17 : T Nat Nat,
      putAll (fun k => k) Nat.beq ((List.range 16).map fun k => (k, 10 * k)) create =
        some t16 ∧
      t16.entries.length = 32 ∧ t16.size = 16 ∧
      put (fun k => k) Nat.beq t16 16 160 = some (t17, none) ∧
      t17.size = 17 ∧ t17.entries.length = 128 ∧
      ∀ k, k < 17 → get (fun k2 => k2) Nat.beq t17 k = some (some (10 * k)) := by
  refine ⟨by decide, rfl, mkT 16, mkBig, ?_, by decide, rfl, put_seventeenth, rfl,
    by decide, get_seventeen⟩
  rw [show (create : T Nat Nat) = mkT 0 from rfl, List.range_eq_range']
  exact putAll_chain (fun k => (k, 10 * k)) mkT 16 0
    (fun j h1 h2 => put16_steps j (by omega))

/-- C4: whenever an insert fires the growth trigger `capacity < 2*(size+1)`,
the rehashed capacity equals the spec's growth-target formula (least power of
two ≥ 4×target, floor 8) applied to the post-insert `size`. -/
theorem claim_C4 {hash : K → Nat} {keq : K → K → Bool} (hc : HContract hash keq)
    {t : T K V} (hwf : WF hash keq t) {k : K}
    (hl : lookupL keq t.entries k = none) (v : V)
    (htrig : t.entries.length < 2 * (t.size + 1)) :
    ∃ t', put hash keq t k v = some (t', none) ∧ t'.size = t.size + 1 ∧
      t'.entries.length = specGrowthTarget t'.size := by
  obtain ⟨t', hput, hwf', hsz', hperm, hcap⟩ := put_spec_absent hc hwf hl v
  refine ⟨t', hput, hsz', ?_⟩
  rcases hcap with ⟨hno, _⟩ | ⟨_, hyes⟩
  · omega
  · rw [hsz']
    exact hyes

theorem claim_C4_witness :
    ∃ t', put (fun k : Nat => k) Nat.beq t4 4 40 = some (t', none) ∧
      t'.size = t4.size + 1 ∧
      t'.entries.length = specGrowthTarget t'.size :=
  claim_C4 hcontract_nat (by decide) (by decide) 40 (by decide)

/-- C5: on a well-formed table where key `k` is stored as `(k0, v1)`,
`put(k, v2)` returns the previous pair, leaves `size` unchanged, and a
subsequent `get(k)` returns `v2`. -/
theorem claim_C5 {hash : K → Nat} {keq : K → K → Bool} (hc : HContract hash keq)
    {t : T K V} (hwf : WF hash keq t) {k k0 : K} {v1 : V}
    (hl : lookupL keq t.entries k = some (k0, v1)) (v2 : V) :
    ∃ t', put hash keq t k v2 = some (t', some (k0, v1)) ∧ t'.size = t.size ∧
      get hash keq t' k = some (some v2) := by
  obtain ⟨t', hput, hwf', hsz, _, hlk⟩ := put_spec_found hc hwf hl v2
  refine ⟨t', hput, hsz, ?_⟩
  rw [get_spec hc hwf', hlk]
  rfl

theorem claim_C5_witness :
    ∃ t', put (fun k : Nat => k) Nat.beq t8 0 55 = some (t', some (0, 100)) ∧
      t'.size = t8.size ∧
      get (fun k : Nat => k) Nat.beq t' 0 = some (some 55) :=
  claim_C5 hcontract_nat (by decide) (by decide) 55

/-- C6: with fewer occupied slots than the power-of-two capacity, the shared
linear-probe scan terminates, at an `Empty` slot or at a slot whose key is
`TKEYEQUAL` to the searched key. -/
theorem claim_C6 (hash : K → Nat) (keq : K → K → Bool) (t : T K V) (k : K) {e : Nat}
    (hn : t.entries.length = 2 ^ e)
    (hsize : occCount t.entries < t.entries.length) :
    ∃ i, i < t.entries.length ∧ probe hash keq t k = some i ∧
      (slotAt t.entries i = none ∨
       ∃ k' v', slotAt t.entries i = some (k', v') ∧ keq k k' = true) := by
  obtain ⟨m, hm, hprobe, hstop, _⟩ := probe_spec hn (occCount_lt_iff_exists_none hsize)
  refine ⟨_, ?_, hprobe, ?_⟩
  · exact Nat.mod_lt _ (by rw [hn]; exact Nat.two_pow_pos e)
  · exact stopB_elim_true hstop

theorem claim_C6_witness :
    ∃ i, i < t8.entries.length ∧ probe (fun k : Nat => k) Nat.beq t8 1 = some i ∧
      (slotAt t8.entries i = none ∨
       ∃ k' v', slotAt t8.entries i = some (k', v') ∧ Nat.beq 1 k' = true) :=
  claim_C6 (fun k : Nat => k) Nat.beq t8 1
    (show t8.entries.length = 2 ^ 3 from by decide) (by decide)

/-- C7: under the §3 invariants and §6 contract, `put`, `remove`, `copy` and
(at an occupied cursor) `iterator_remove` always return normally: every
reinsertion inside the rehash, the backward-shift walks and `copy` lands on
an `Empty` slot, so the `assert(0)` branches are unreachable. -/
theorem claim_C7 {hash : K → Nat} {keq : K → K → Bool} (hc : HContract hash keq) :
    (∀ t : T K V, WF hash keq t → ∀ k v, ∃ r, put hash keq t k v = some r) ∧
    (∀ t : T K V, WF hash keq t → ∀ k, ∃ r, remove hash keq t k = some r) ∧
    (∀ t : T K V, WF hash keq t → ∃ t2, copy hash keq t = some t2) ∧
    (∀ it : iterator_t K V, WF hash keq it.hash → ∀ i : Nat, it.last_entry = (i : Int) →
      i < it.hash.entries.length → ∀ k0 v0, slotAt it.hash.entries i = some (k0, v0) →
      ∃ it2, iterator_remove hash keq it = some it2) := by
  refine ⟨?_, ?_, ?_, ?_⟩
  · intro t hwf k v
    cases hl : lookupL keq t.entries k with
    | some p =>
      obtain ⟨k0, v0⟩ := p
      obtain ⟨t', hput, _⟩ := put_spec_found hc hwf hl v
      exact ⟨(t', some (k0, v0)), hput⟩
    | none =>
      obtain ⟨t', hput, _⟩ := put_spec_absent hc hwf hl v
      exact ⟨(t', none), hput⟩
  · intro t hwf k
    cases hl : lookupL keq t.entries k with
    | some p =>
      obtain ⟨k0, v0⟩ := p
      obtain ⟨t', hrm, _⟩ := remove_found_spec hc hwf hl
      exact ⟨(t', some (k0, v0)), hrm⟩
    | none =>
      obtain ⟨e, _, hn⟩ := hwf.1
      exact ⟨(t, none),
        remove_absent_spec hn (wf_exists_none hwf) (lookupL_eq_none_iff.mp hl)⟩
  · intro t hwf
    obtain ⟨t2, hcp, _⟩ := copy_spec hc hwf
    exact ⟨t2, hcp⟩
  · intro it hwf i hle hi k0 v0 hs
    obtain ⟨it2, heq, _⟩ := iterator_remove_spec hc hwf hle hi hs
    exact ⟨it2, heq⟩

theorem claim_C7_witness :
    ∃ r, put (fun k : Nat => k) Nat.beq t8 3 30 = some r :=
  (claim_C7 hcontract_nat).1 t8 (by decide) 3 30

/-- C8: every operation preserves the §3 structural invariants (power-of-two
capacity ≥ 8, `2*size ≤ capacity`, and the full §3 invariant bundle), and the
walks of `remove` and `iterator_remove` keep the capacity unchanged — only
the rehash inside `put` ever changes it. -/
theorem claim_C8 {hash : K → Nat} {keq : K → K → Bool} (hc : HContract hash keq) :
    (∀ c : Nat, WF hash keq (create_capacity c : T K V)) ∧
    WF hash keq (create : T K V) ∧
    (∀ t : T K V, WF hash keq t → WF hash keq (clear t)) ∧
    (∀ (t : T K V) (k : K) (v : V), WF hash keq t →
      ∃ t' r, put hash keq t k v = some (t', r) ∧ WF hash keq t') ∧
    (∀ (t : T K V) (k : K), WF hash keq t →
      ∃ t' r, remove hash keq t k = some (t', r) ∧ WF hash keq t' ∧
        t'.entries.length = t.entries.length) ∧
    (∀ t : T K V, WF hash keq t → ∃ t', copy hash keq t = some t' ∧ WF hash keq t') ∧
    (∀ (it : iterator_t K V) (i : Nat) (k0 : K) (v0 : V), WF hash keq it.hash →
      it.last_entry = (i : Int) → i < it.hash.entries.length →
      slotAt it.hash.entries i = some (k0, v0) →
      ∃ it', iterator_remove hash keq it = some it' ∧ WF hash keq it'.hash ∧
        it'.hash.entries.length = it.hash.entries.length) := by
  refine ⟨?_, ?_, ?_, ?_, ?_, ?_, ?_⟩
  · intro c
    exact create_capacity_wf hash keq c
  · exact create_capacity_wf hash keq 8
  · intro t hwf
    obtain ⟨⟨e, he, hn⟩, h8, _, _, _, _⟩ := hwf
    refine ⟨⟨e, ?_, ?_⟩, ?_, ?_, ?_, ?_, ?_⟩
    · show e < (List.replicate t.entries.length (none : Slot K V)).length
      rw [List.length_replicate]
      exact he
    · show (List.replicate t.entries.length (none : Slot K V)).length = 2 ^ e
      rw [List.length_replicate]
      exact hn
    · show 8 ≤ (List.replicate t.entries.length (none : Slot K V)).length
      rw [List.length_replicate]
      exact h8
    · show (0 : Nat) = occCount (List.replicate t.entries.length none)
      unfold occCount
      rw [occPairs_replicate]
      rfl
    · show 2 * 0 ≤ (List.replicate t.entries.length (none : Slot K V)).length
      omega
    · show DistinctKeys keq (List.replicate t.entries.length none)
      unfold DistinctKeys
      rw [occPairs_replicate]
      exact List.Pairwise.nil
    · exact reach_replicate hash _
  · intro t k v hwf
    cases hl : lookupL keq t.entries k with
    | some p =>
      obtain ⟨k0, v0⟩ := p
      obtain ⟨t', hput, hwf', _⟩ := put_spec_found hc hwf hl v
      exact ⟨t', some (k0, v0), hput, hwf'⟩
    | none =>
      obtain ⟨t', hput, hwf', _⟩ := put_spec_absent hc hwf hl v
      exact ⟨t', none, hput, hwf'⟩
  · intro t k hwf
    cases hl : lookupL keq t.entries k with
    | some p =>
      obtain ⟨k0, v0⟩ := p
      obtain ⟨t', hrm, hwf', hlen', _⟩ := remove_found_spec hc hwf hl
      exact ⟨t', some (k0, v0), hrm, hwf', hlen'⟩
    | none =>
      obtain ⟨e, _, hn⟩ := hwf.1
      exact ⟨t, none,
        remove_absent_spec hn (wf_exists_none hwf) (lookupL_eq_none_iff.mp hl), hwf, rfl⟩
  · intro t hwf
    obtain ⟨t', hcp, hwf', _⟩ := copy_spec hc hwf
    exact ⟨t', hcp, hwf'⟩
  · intro it i k0 v0 hwf hle hi hs
    obtain ⟨it', heq, hwf', hlen', _⟩ := iterator_remove_spec hc hwf hle hi hs
    exact ⟨it', heq, hwf', hlen'⟩

theorem claim_C8_witness :
    WF (fun k : Nat => k) Nat.beq (create_capacity 5 : T Nat Nat) :=
  (claim_C8 hcontract_nat).1 5

/-- C9: a `get` or `remove` of an absent key returns the explicit not-found
outcome — `get` reports not-found and `remove` returns the table itself,
with slots, `size` and capacity untouched. -/
theorem claim_C9 (hash : K → Nat) (keq : K → K → Bool) (t : T K V) (k : K) {e : Nat}
    (hn : t.entries.length = 2 ^ e)
    (hemp : occCount t.entries < t.entries.length)
    (habs : ∀ p ∈ occPairs t.entries, keq k p.1 = false) :
    get hash keq t k = some none ∧ remove hash keq t k = some (t, none) := by
  constructor
  · obtain ⟨m, hm, hprobe, hnone, _⟩ :=
      probe_finds_absent t hn (occCount_lt_iff_exists_none hemp) habs
    unfold get
    rw [hprobe]
    simp only [Option.map_some', hnone]
  · exact remove_absent_spec hn (occCount_lt_iff_exists_none hemp) habs

theorem claim_C9_witness :
    get (fun k : Nat => k) Nat.beq t8 7 = some none ∧
      remove (fun k : Nat => k) Nat.beq t8 7 = some (t8, none) :=
  claim_C9 (fun k : Nat => k) Nat.beq t8 7
    (show t8.entries.length = 2 ^ 3 from by decide) (by decide) (by decide)

/-- C10: from `iterator_init`, the full pass of `iterator_next` (with enough
calls to exhaust the array) visits exactly the occupied slots, each once, in
strictly increasing slot order, yielding exactly the stored pairs, and then
reports end-of-sequence. -/
theorem claim_C10 (t : T K V) (fuel : Nat) (hfuel : t.entries.length + 1 ≤ fuel) :
    iterTrace fuel (iterator_init t) =
      (List.range t.entries.length).filterMap (traceEntry t.entries) ∧
    (iterTrace fuel (iterator_init t)).map (fun x => x.2) = occPairs t.entries ∧
    List.Pairwise (fun a b : Int × K × V => a.1 < b.1)
      (iterTrace fuel (iterator_init t)) := by
  have h1 := iterTrace_init t fuel hfuel
  refine ⟨h1, ?_, ?_⟩
  · rw [h1]
    exact iterTrace_pairs t.entries
  · rw [h1]
    exact iterTrace_sorted t.entries

theorem claim_C10_witness :
    iterTrace 9 (iterator_init t8) =
      (List.range t8.entries.length).filterMap (traceEntry t8.entries) ∧
    (iterTrace 9 (iterator_init t8)).map (fun x => x.2) = occPairs t8.entries ∧
    List.Pairwise (fun a b : Int × Nat × Nat => a.1 < b.1)
      (iterTrace 9 (iterator_init t8)) :=
  claim_C10 t8 9 (by decide)

end thash
